import Mathlib

/-!
# swaggman: merge engine (`swagger2/merge.go`) and operation inventory (`openapi3/spec_more.go`)

A shallow embedding of the two Go source files.

* Go strings are Lean `String`s.
* A Go `map[string]V` is `GoMap V`: `none` is the nil map, `some d` a map whose
  entries are the key-distinct association list `d.entries`.  The order of the
  list stands for the order in which a `range` loop happens to visit the
  entries; every theorem below quantifies over all such lists, hence over every
  iteration order.
* Writing into a nil map panics in Go; functions that may panic return `Option`
  (`none` is the panic).
* A map value is a reference.  `Merge` and its parts are given twice: on document
  values, which is what a single call returns, and on a state of map objects
  (`MergeRef`), which is what several calls over shared documents see.
-/

namespace Swaggman

/-! ## Go runtime pieces -/

/-- Go `unicode.IsSpace`: the Latin-1 spaces and the code points with the
Unicode White_Space property. -/
def isSpace (c : Char) : Bool :=
  c.toNat = 0x09 || c.toNat = 0x0A || c.toNat = 0x0B || c.toNat = 0x0C || c.toNat = 0x0D ||
  c.toNat = 0x20 || c.toNat = 0x85 || c.toNat = 0xA0 || c.toNat = 0x1680 ||
  (0x2000 ≤ c.toNat && c.toNat ≤ 0x200A) ||
  c.toNat = 0x2028 || c.toNat = 0x2029 || c.toNat = 0x202F || c.toNat = 0x205F ||
  c.toNat = 0x3000

/-- Go `strings.TrimSpace` on a list of runes: drop leading and trailing white space. -/
def trimSpaceChars (cs : List Char) : List Char :=
  ((cs.dropWhile isSpace).reverse.dropWhile isSpace).reverse

/-- Go `strings.TrimSpace`. -/
def TrimSpace (s : String) : String :=
  ⟨trimSpaceChars s.data⟩

/-- Go `len(s)` of a string: its length in bytes. -/
def len (s : String) : Nat :=
  s.utf8ByteSize

/-- Go `strings.Join`. -/
def Join (elems : List String) (sep : String) : String :=
  sep.intercalate elems

/-- The value a 64-bit two's complement `int` holds for the mathematical integer
`n`: conversions to `int` and `int` arithmetic wrap around modulo 2^64. -/
def wrapInt64 (n : Int) : Int :=
  (n + 2 ^ 63) % 2 ^ 64 - 2 ^ 63

/-- Assignment `m[k] = v` on the entry list of a map: overwrite the entry with
key `k` if there is one, add a new entry otherwise. -/
def assignList {V : Type} (k : String) (v : V) : List (String × V) → List (String × V)
  | [] => [(k, v)]
  | (k', v') :: rest => if k' = k then (k, v) :: rest else (k', v') :: assignList k v rest

/-- A non-nil Go `map[string]V`: its entries, with pairwise distinct keys.  The
order of `entries` is the order in which a `range` loop visits them. -/
structure GoMapData (V : Type) where
  entries : List (String × V)
  nodup : (entries.map Prod.fst).Nodup
  deriving DecidableEq, Repr

/-- Go `map[string]V`: `none` is the nil map. -/
abbrev GoMap (V : Type) := Option (GoMapData V)

namespace GoMap

variable {V : Type}

/-- The map literal `map[string]V{}`. -/
def empty : GoMapData V := ⟨[], List.nodup_nil⟩

/-- The entries a `range` loop visits (none for the nil map). -/
def entries : GoMap V → List (String × V)
  | none => []
  | some d => d.entries

/-- Map read `m[k]` with the comma-ok flag folded into the `Option`; a read of
the nil map finds nothing. -/
def get (m : GoMap V) (k : String) : Option V :=
  (entries m).lookup k

/-- Assignment `m[k] = v` on a non-nil map. -/
def assign (k : String) (v : V) (d : GoMapData V) : GoMapData V :=
  ⟨assignList k v d.entries, by
    have key : ∀ l : List (String × V),
        (∀ x, x ∈ (assignList k v l).map Prod.fst ↔ x = k ∨ x ∈ l.map Prod.fst) ∧
        ((l.map Prod.fst).Nodup → ((assignList k v l).map Prod.fst).Nodup) := by
      intro l
      induction l with
      | nil => simp [assignList]
      | cons hd tl ih =>
        obtain ⟨a, b⟩ := hd
        by_cases hak : a = k
        · subst hak
          simp [assignList]
        · simp only [assignList, hak, if_false, List.map_cons, List.mem_cons, List.nodup_cons,
            ih.1]
          refine ⟨fun x => by tauto, fun h => ⟨?_, ih.2 h.2⟩⟩
          rintro (h1 | h1)
          · exact h1
          · exact h.1 h1
    exact (key d.entries).2 d.nodup⟩

/-- Assignment `m[k] = v`; panics (`none`) on the nil map. -/
def set (m : GoMap V) (k : String) (v : V) : Option (GoMap V) :=
  match m with
  | none => none
  | some d => some (some (assign k v d))

end GoMap

/-! ## Data model -/

/-- Modelled from the spec: the `Tag` type is declared outside the two source
files; section 3 gives it a name and a description. -/
structure Tag where
  Name : String
  Description : String
  deriving DecidableEq, Repr

/-- Modelled from the spec: the `Operation` type is declared outside the source
files; section 3 gives it an identifier, a summary, an ordered list of tag
names and a map of extension properties. -/
structure Operation where
  OperationID : String
  Summary : String
  Tags : List String
  ExtensionProps : List (String × String)
  deriving DecidableEq, Repr

/-- Modelled from the spec: the path item type is declared outside the source
files; section 3 gives it zero or one operation per HTTP method.  The nine
slots are the fields `OperationMetas` reads. -/
structure PathItem where
  Connect : Option Operation
  Delete : Option Operation
  Get : Option Operation
  Head : Option Operation
  Options : Option Operation
  Patch : Option Operation
  Post : Option Operation
  Put : Option Operation
  Trace : Option Operation
  deriving DecidableEq, Repr

/-- Modelled from the spec: the schema type is declared outside the source
files; only its identity matters here. -/
structure Schema where
  Description : String
  deriving DecidableEq, Repr

/-- Modelled from the spec: section 3, a reference string, an inline value, or
neither. -/
structure SchemaOrRef where
  Ref : String
  Value : Option Schema
  deriving DecidableEq, Repr

/-- The path item with no operation in any slot. -/
def PathItem.zero : PathItem :=
  { Connect := none, Delete := none, Get := none, Head := none, Options := none,
    Patch := none, Post := none, Put := none, Trace := none }

/-- An operation that carries only an identifier. -/
def opNamed (id : String) : Operation :=
  { OperationID := id, Summary := "", Tags := [], ExtensionProps := [] }

/-- A tag that carries only a name. -/
def tagNamed (name : String) : Tag :=
  { Name := name, Description := "" }

/-- A path item with a GET operation only. -/
def getOnly : PathItem :=
  { PathItem.zero with Get := some (opNamed "read") }

/-- A path item with a POST operation only. -/
def postOnly : PathItem :=
  { PathItem.zero with Post := some (opNamed "create") }

/-- A map with a single entry. -/
def GoMap.single {V : Type} (k : String) (v : V) : GoMap V :=
  some ⟨[(k, v)], List.nodup_singleton k⟩

/-! ## `swagger2/merge.go` -/

namespace swagger2

/-- Modelled from the spec: the `Specification` type is declared outside
`merge.go`.  `merge.go` itself shows the slice `Tags` and the two maps `Paths`
and `Definitions`; section 3 adds the root metadata (title) and the server
entries, which stand for every field the merge does not touch. -/
structure Specification where
  Title : String
  Servers : List String
  Tags : List Tag
  Paths : GoMap PathItem
  Definitions : GoMap SchemaOrRef
  deriving DecidableEq, Repr

/-- The Go zero value `Specification{}`: empty strings, nil slices, nil maps. -/
def Specification.zero : Specification :=
  { Title := "", Servers := [], Tags := [], Paths := none, Definitions := none }

/-- Go `error` values, identified with their message. -/
abbrev Error := String

/-- `MergeTags` (merge.go:46-58). -/
def MergeTags (specMaster specExtra : Specification) : Specification :=
  let tagsMap : List (String × Int) :=
    specMaster.Tags.foldl (fun tagsMap tag => assignList tag.Name 1 tagsMap) []
  let tags := specExtra.Tags.foldl
    (fun tags tag =>
      let tag := { tag with Name := TrimSpace tag.Name }
      match tagsMap.lookup tag.Name with
      | none => tags ++ [tag]
      | some _ => tags)
    specMaster.Tags
  { specMaster with Tags := tags }

/-- `MergePaths` (merge.go:60-65); `none` is the panic of a write into a nil map. -/
def MergePaths (specMaster specExtra : Specification) : Option Specification :=
  (specExtra.Paths.entries.foldlM
      (fun paths (entry : String × PathItem) => GoMap.set paths entry.1 entry.2)
      specMaster.Paths).map
    (fun paths => { specMaster with Paths := paths })

/-- `MergeDefinitions` (merge.go:67-72); `none` is the panic of a write into a nil map. -/
def MergeDefinitions (specMaster specExtra : Specification) : Option Specification :=
  (specExtra.Definitions.entries.foldlM
      (fun defs (entry : String × SchemaOrRef) => GoMap.set defs entry.1 entry.2)
      specMaster.Definitions).map
    (fun defs => { specMaster with Definitions := defs })

/-- `Merge` (merge.go:40-44). -/
def Merge (specMaster specExtra : Specification) : Option Specification :=
  let specMaster := MergeTags specMaster specExtra
  match MergePaths specMaster specExtra with
  | none => none
  | some specMaster => MergeDefinitions specMaster specExtra

/-- The `for i, fi := range fileInfos` loop of `MergeDirectory` (merge.go:25-36),
from index `i` on, over the parse results of the remaining files.  The result is
the returned pair `(Specification, error)`; `none` is a panic inside `Merge`. -/
def mergeLoop : Nat → Specification → List (Except Error Specification) →
    Option (Specification × Option Error)
  | _, specMaster, [] => some (specMaster, none)
  | _, specMaster, Except.error err :: _ => some (specMaster, some err)
  | i, specMaster, Except.ok thisSpec :: rest =>
    if i = 0 then mergeLoop (i + 1) thisSpec rest
    else
      match Merge specMaster thisSpec with
      | none => none
      | some merged => mergeLoop (i + 1) merged rest

/-- `MergeDirectory` (merge.go:16-38).  `listing` is the result of the directory
lister; a successful listing is the ordered list of the parse results
`ReadSwagger2Spec` gives for the matching files. -/
def MergeDirectory (dir : String)
    (listing : Except Error (List (Except Error Specification))) :
    Option (Specification × Option Error) :=
  match listing with
  | Except.error err => some (Specification.zero, some err)
  | Except.ok fileInfos =>
    if fileInfos.length = 0 then
      some (Specification.zero, some ("No JSON files found in directory [" ++ dir ++ "]"))
    else
      mergeLoop 0 Specification.zero fileInfos

/-! ### Documents that share map objects

A Go map value is a reference to a map object.  `MergePaths` and `MergeDefinitions`
write into the object the master document refers to (merge.go:62, 69), so the write
is seen through every document value that refers to the same object.  The
definitions above give the document a single call returns; the definitions below
make the map objects explicit, which matters where several merges are evaluated
over documents that share them. -/

/-- The map objects of a program state; the address of an object is its position. -/
structure Heap where
  pathMaps : List (GoMapData PathItem)
  definitionMaps : List (GoMapData SchemaOrRef)
  deriving DecidableEq, Repr

/-- A `Specification` value as Go passes it around: the struct is copied, its two
map fields are references (`none` is the nil map, `some addr` the map object at
address `addr`). -/
structure SpecificationRef where
  Title : String
  Servers : List String
  Tags : List Tag
  Paths : Option Nat
  Definitions : Option Nat
  deriving DecidableEq, Repr

/-- The map a reference stands for among the map objects `maps`: the nil map for the
nil reference. -/
def readMap {V : Type} (maps : List (GoMapData V)) (ref : Option Nat) : GoMap V :=
  match ref with
  | none => none
  | some addr => maps[addr]?

/-- The assignment `m[k] = v` through a reference: the map object is updated in
place; `none` is the panic of a write into a nil map. -/
def writeMap {V : Type} (maps : List (GoMapData V)) (ref : Option Nat) (k : String) (v : V) :
    Option (List (GoMapData V)) :=
  match ref with
  | none => none
  | some addr =>
    match maps[addr]? with
    | none => none
    | some d => some (maps.set addr (GoMap.assign k v d))

/-- The document a `Specification` value stands for in a state. -/
def Heap.load (heap : Heap) (spec : SpecificationRef) : Specification :=
  { Title := spec.Title, Servers := spec.Servers, Tags := spec.Tags,
    Paths := readMap heap.pathMaps spec.Paths,
    Definitions := readMap heap.definitionMaps spec.Definitions }

/-- `MergeTags` (merge.go:46-58) on `Specification` values; it touches no map. -/
def MergeTagsRef (specMaster specExtra : SpecificationRef) : SpecificationRef :=
  let tagsMap : List (String × Int) :=
    specMaster.Tags.foldl (fun tagsMap tag => assignList tag.Name 1 tagsMap) []
  let tags := specExtra.Tags.foldl
    (fun tags tag =>
      let tag := { tag with Name := TrimSpace tag.Name }
      match tagsMap.lookup tag.Name with
      | none => tags ++ [tag]
      | some _ => tags)
    specMaster.Tags
  { specMaster with Tags := tags }

/-- `MergePaths` (merge.go:60-65) in a state: every entry of the map of `specExtra`
is written into the map object of `specMaster`.  The entries are those the map of
`specExtra` holds when the loop starts; when both documents refer to the same
object each write stores the value the entry already has, so this is also what the
loop sees while it runs. -/
def MergePathsRef (heap : Heap) (specMaster specExtra : SpecificationRef) :
    Option (Heap × SpecificationRef) :=
  ((readMap heap.pathMaps specExtra.Paths).entries.foldlM
      (fun (maps : List (GoMapData PathItem)) (entry : String × PathItem) =>
        writeMap maps specMaster.Paths entry.1 entry.2)
      heap.pathMaps).map
    (fun maps => ({ heap with pathMaps := maps }, specMaster))

/-- `MergeDefinitions` (merge.go:67-72) in a state. -/
def MergeDefinitionsRef (heap : Heap) (specMaster specExtra : SpecificationRef) :
    Option (Heap × SpecificationRef) :=
  ((readMap heap.definitionMaps specExtra.Definitions).entries.foldlM
      (fun (maps : List (GoMapData SchemaOrRef)) (entry : String × SchemaOrRef) =>
        writeMap maps specMaster.Definitions entry.1 entry.2)
      heap.definitionMaps).map
    (fun maps => ({ heap with definitionMaps := maps }, specMaster))

/-- `Merge` (merge.go:40-44) in a state: the state after the call and the returned
`Specification` value. -/
def MergeRef (heap : Heap) (specMaster specExtra : SpecificationRef) :
    Option (Heap × SpecificationRef) :=
  let specMaster := MergeTagsRef specMaster specExtra
  match MergePathsRef heap specMaster specExtra with
  | none => none
  | some (heap, specMaster) => MergeDefinitionsRef heap specMaster specExtra

/-- The evaluation of `Merge(Merge(A, B), C)` from a state. -/
def mergeLeftNested (heap : Heap) (A B C : SpecificationRef) : Option (Heap × SpecificationRef) :=
  match MergeRef heap A B with
  | none => none
  | some (heap, ab) => MergeRef heap ab C

/-- The evaluation of `Merge(A, Merge(B, C))` from a state. -/
def mergeRightNested (heap : Heap) (A B C : SpecificationRef) : Option (Heap × SpecificationRef) :=
  match MergeRef heap B C with
  | none => none
  | some (heap, bc) => MergeRef heap A bc

/-- The path item a returned document holds for a path, in the state after the call. -/
def pathItemOf (result : Heap × SpecificationRef) (p : String) : Option PathItem :=
  (result.1.load result.2).Paths.get p

/-- The name-trimmed copy of a tag: what the loop body of `MergeTags` appends. -/
def trimTag (tag : Tag) : Tag :=
  { tag with Name := TrimSpace tag.Name }

/-- The tag list the specification text promises for a merge: the master tags
followed by those tags of `extra` whose trimmed name is the trimmed name of no
master tag. -/
def claimedTags (specMaster specExtra : Specification) : List Tag :=
  specMaster.Tags ++ specExtra.Tags.filter
    (fun tag => decide (TrimSpace tag.Name ∉ specMaster.Tags.map (fun m => TrimSpace m.Name)))

/-- The key-wise overwrite the specification text describes for the path and
definition maps: the entry of `extra` when it has one, else the entry of `master`. -/
def overwrite {V : Type} (master extra : GoMap V) (k : String) : Option V :=
  match extra.get k with
  | some v => some v
  | none => master.get k

/-- The left fold `Merge(...Merge(Merge(d1, d2), d3)..., dn)` of the
specification text, seeded with `d1`; `none` when one of the merges panics. -/
def foldMerge : Specification → List Specification → Option Specification
  | d, [] => some d
  | d, e :: rest =>
    match Merge d e with
    | none => none
    | some merged => foldMerge merged rest

/-- The document accumulated from the files read so far: the zero value when
none has been read, the left fold of `Merge` over them otherwise. -/
def mergedPrefix : List Specification → Option Specification
  | [] => some Specification.zero
  | d :: rest => foldMerge d rest

/-! ### Example documents -/

/-- A document with empty, non-nil maps and the given tag names. -/
def docWithTags (names : List String) : Specification :=
  { Specification.zero with
    Tags := names.map tagNamed, Paths := some GoMap.empty, Definitions := some GoMap.empty }

/-- A document with empty, non-nil definitions whose only path is `/x`. -/
def docWithPath (item : PathItem) : Specification :=
  { Specification.zero with
    Paths := GoMap.single "/x" item, Definitions := some GoMap.empty }

/-- A document with empty, non-nil paths whose only definition is `Pet`. -/
def docWithDefinition (schema : SchemaOrRef) : Specification :=
  { Specification.zero with
    Paths := some GoMap.empty, Definitions := GoMap.single "Pet" schema }

/-- A document with a path map and no `definitions` section (nil map). -/
def docWithoutDefinitions : Specification :=
  { Specification.zero with Paths := GoMap.single "/x" getOnly }

/-- A document with a definition map and no `paths` section (nil map). -/
def docWithoutPaths : Specification :=
  { Specification.zero with Definitions := GoMap.single "Pet" ⟨"", none⟩ }

/-- A document with the path `/x` and the definition `Pet`. -/
def docFull (item : PathItem) (schema : SchemaOrRef) : Specification :=
  { Specification.zero with
    Paths := GoMap.single "/x" item, Definitions := GoMap.single "Pet" schema }

/-- A state with two path maps, `/x` with GET at address 0 and `/x` with POST at
address 1, and two empty definition maps. -/
def twoMapHeap : Heap :=
  { pathMaps := [⟨[("/x", getOnly)], by decide⟩, ⟨[("/x", postOnly)], by decide⟩],
    definitionMaps := [GoMap.empty, GoMap.empty] }

/-- The document value that refers to the maps at the given address. -/
def docAt (addr : Nat) : SpecificationRef :=
  { Title := "", Servers := [], Tags := [], Paths := some addr, Definitions := some addr }

/-- A document with a title, one server, the path `/x` and empty definitions. -/
def titledDoc (title : String) (item : PathItem) : Specification :=
  { docWithPath item with Title := title, Servers := [title ++ ".example.com"] }

end swagger2

/-! ## `openapi3/spec_more.go` -/

namespace openapi3

/-- Modelled from the spec: section 3, a tag group is a name plus an ordered list of
the tag names it contains. -/
structure TagGroup where
  Name : String
  Tags : List String
  deriving DecidableEq, Repr

/-- Modelled from the spec: the root metadata of a document, reached through the
`Info` pointer of the document (`spec.Info.Title`, spec_more.go:47). -/
structure Info where
  Title : String
  deriving DecidableEq, Repr

/-- Modelled from the spec: the document type `oas3.Swagger` comes from an
external library.  Section 3 gives it root metadata (title), server entries,
tags, a map from path string to path item (every entry holds a path item, as in
section 3) and a map from schema name to schema-or-reference (whose entries may be
nil).  `Info` is a pointer: `none` is the nil pointer of a document without root
metadata.  `XTagGroups` is the document-level tag-group extension property: `none`
when the document has none, `some none` when it is malformed, `some (some gs)` when
it declares the groups `gs`. -/
structure Swagger where
  Info : Option Info
  Servers : List String
  Tags : List Tag
  Paths : GoMap PathItem
  Schemas : GoMap (Option SchemaOrRef)
  XTagGroups : Option (Option (List TagGroup))
  deriving DecidableEq, Repr

/-- The Go zero value of the document type. -/
def Swagger.zero : Swagger :=
  { Info := none, Servers := [], Tags := [], Paths := none, Schemas := none,
    XTagGroups := none }

/-- `SpecMore` (spec_more.go:17-19); `Spec = none` is the nil pointer. -/
structure SpecMore where
  Spec : Option Swagger
  deriving DecidableEq, Repr

/-- Modelled from the spec: section 3, the flat summary record
{path, method, operationId, summary, tags}. -/
structure OperationMeta where
  Path : String
  Method : String
  OperationID : String
  Summary : String
  Tags : List String
  deriving DecidableEq, Repr

/-- Modelled from the spec: `OperationToMeta` is defined outside
`spec_more.go`; section 4.2 has it capture the operation identifier, the summary
and a copy of the tag list, in the context of the given path and method. -/
def OperationToMeta (url method : String) (op : Operation) : OperationMeta :=
  { Path := url, Method := method, OperationID := op.OperationID, Summary := op.Summary,
    Tags := op.Tags }

/-- Go `http.MethodConnect`. -/
def MethodConnect : String := "CONNECT"
/-- Go `http.MethodDelete`. -/
def MethodDelete : String := "DELETE"
/-- Go `http.MethodGet`. -/
def MethodGet : String := "GET"
/-- Go `http.MethodHead`. -/
def MethodHead : String := "HEAD"
/-- Go `http.MethodOptions`. -/
def MethodOptions : String := "OPTIONS"
/-- Go `http.MethodPatch`. -/
def MethodPatch : String := "PATCH"
/-- Go `http.MethodPost`. -/
def MethodPost : String := "POST"
/-- Go `http.MethodPut`. -/
def MethodPut : String := "PUT"
/-- Go `http.MethodTrace`. -/
def MethodTrace : String := "TRACE"

/-- One `if slot != nil { ometas = append(ometas, OperationToMeta(url, method, slot)) }`
statement of `OperationMetas`. -/
def appendIfPresent (ometas : List OperationMeta) (url method : String)
    (slot : Option Operation) : List OperationMeta :=
  match slot with
  | some op => ometas ++ [OperationToMeta url method op]
  | none => ometas

/-- The body of the `range sm.Spec.Paths` loop of `OperationMetas`
(spec_more.go:146-172). -/
def visitPath (ometas : List OperationMeta) (url : String) (path : PathItem) :
    List OperationMeta :=
  let ometas := appendIfPresent ometas url MethodConnect path.Connect
  let ometas := appendIfPresent ometas url MethodDelete path.Delete
  let ometas := appendIfPresent ometas url MethodGet path.Get
  let ometas := appendIfPresent ometas url MethodHead path.Head
  let ometas := appendIfPresent ometas url MethodOptions path.Options
  let ometas := appendIfPresent ometas url MethodPatch path.Patch
  let ometas := appendIfPresent ometas url MethodPost path.Post
  let ometas := appendIfPresent ometas url MethodPut path.Put
  let ometas := appendIfPresent ometas url MethodTrace path.Trace
  ometas

/-- `SpecMore.OperationMetas` (spec_more.go:140-176). -/
def SpecMore.OperationMetas (sm : SpecMore) : List OperationMeta :=
  let ometas : List OperationMeta := []
  match sm.Spec with
  | none => ometas
  | some spec =>
    spec.Paths.entries.foldl
      (fun ometas (entry : String × PathItem) => visitPath ometas entry.1 entry.2) ometas

/-- `SpecMore.OperationsCount` (spec_more.go:178-183). -/
def SpecMore.OperationsCount (sm : SpecMore) : Int :=
  match sm.Spec with
  | none => -1
  | some _ => (sm.OperationMetas.length : Int)

/-- The closed, ordered set of HTTP methods of the specification text. -/
inductive Method where
  | CONNECT | DELETE | GET | HEAD | OPTIONS | PATCH | POST | PUT | TRACE
  deriving DecidableEq, Repr

/-- The fixed enumeration order CONNECT, DELETE, GET, HEAD, OPTIONS, PATCH, POST,
PUT, TRACE. -/
def Method.all : List Method :=
  [Method.CONNECT, Method.DELETE, Method.GET, Method.HEAD, Method.OPTIONS, Method.PATCH,
    Method.POST, Method.PUT, Method.TRACE]

/-- The method string of a method. -/
def Method.name : Method → String
  | Method.CONNECT => "CONNECT"
  | Method.DELETE => "DELETE"
  | Method.GET => "GET"
  | Method.HEAD => "HEAD"
  | Method.OPTIONS => "OPTIONS"
  | Method.PATCH => "PATCH"
  | Method.POST => "POST"
  | Method.PUT => "PUT"
  | Method.TRACE => "TRACE"

/-- The method slot of a path item. -/
def slot (path : PathItem) : Method → Option Operation
  | Method.CONNECT => path.Connect
  | Method.DELETE => path.Delete
  | Method.GET => path.Get
  | Method.HEAD => path.Head
  | Method.OPTIONS => path.Options
  | Method.PATCH => path.Patch
  | Method.POST => path.Post
  | Method.PUT => path.Put
  | Method.TRACE => path.Trace

/-- The methods of a path item whose slot holds an operation, in the fixed order. -/
def presentMethods (path : PathItem) : List Method :=
  Method.all.filter (fun m => (slot path m).isSome)

/-- The (path, method) pairs of a document whose method slot holds an operation. -/
def operationPairs (spec : Swagger) : List (String × Method) :=
  spec.Paths.entries.flatMap (fun entry => (presentMethods entry.2).map (fun m => (entry.1, m)))

/-- The records the specification text promises for one path: one per present
method slot, in the fixed method order, each carrying the path and the method. -/
def pathRecords (url : String) (path : PathItem) : List OperationMeta :=
  Method.all.filterMap (fun m => (slot path m).map (OperationToMeta url m.name))

/-- Modelled from the spec: `VisitOperations` is defined outside `spec_more.go`;
section 4.1 has it invoke the callback exactly once for every present method slot
of every path, in the fixed method order, paths in the order the map yields them.
The callback updates a state `σ` (its captured variables). -/
def VisitOperations {σ : Type} (spec : Swagger)
    (visitOp : String → String → Operation → σ → σ) (init : σ) : σ :=
  spec.Paths.entries.foldl
    (fun state (entry : String × PathItem) =>
      Method.all.foldl
        (fun state m =>
          match slot entry.2 m with
          | some op => visitOp entry.1 m.name op state
          | none => state)
        state)
    init

/-- Modelled from the spec: `TagGroups` is defined outside `spec_more.go`; section
4.3 has it return the declared groups, an empty collection when the extension
property is absent, and an error when the property is malformed. -/
def SpecMore.TagGroups (sm : SpecMore) : Option (Except swagger2.Error (List TagGroup)) :=
  match sm.Spec with
  | none => none
  | some spec =>
    match spec.XTagGroups with
    | none => some (Except.ok [])
    | some none => some (Except.error "E_TAG_GROUPS_MALFORMED")
    | some (some groups) => some (Except.ok groups)

/-- Modelled from the spec: `GetTagGroupNamesForTagNames` is defined outside
`spec_more.go`; section 4.3 has it collect, for each tag name in turn, the names of
the groups that contain it. -/
def GetTagGroupNamesForTagNames (tgs : List TagGroup) (tagNames : List String) :
    List String :=
  tagNames.flatMap (fun tagName =>
    (tgs.filter (fun group => decide (tagName ∈ group.Tags))).map (fun group => group.Name))

/-- Modelled from the spec: `GetExtensionPropStringOrEmpty` is defined outside
`spec_more.go`; section 4.4 has it look the name up among the extension properties
of the operation and give the empty string when it is absent. -/
def GetExtensionPropStringOrEmpty (props : List (String × String)) (key : String) : String :=
  match props.lookup key with
  | some value => value
  | none => ""

/-- Modelled from the spec: `text.Text` of the external text library, a column with
a display name and a slug. -/
structure Text where
  Display : String
  Slug : String
  deriving DecidableEq, Repr

/-- Modelled from the spec: `text.TextSet` of the external text library, an ordered
list of columns. -/
structure TextSet where
  Texts : List Text
  deriving DecidableEq, Repr

/-- Modelled from the spec: `TextSet.DisplayTexts` of the external text library, the
display names of the columns, in order. -/
def TextSet.DisplayTexts (ts : TextSet) : List String :=
  ts.Texts.map (fun text => text.Display)

/-- Modelled from the spec: `table.Table` of the external table library; section 3
gives the report table a name, column display names and rows of string cells. -/
structure Table where
  Name : String
  Columns : List String
  Records : List (List String)
  deriving DecidableEq, Repr

/-- Modelled from the spec: `table.NewTable` of the external table library, an empty
table. -/
def NewTable : Table :=
  { Name := "", Columns := [], Records := [] }

/-- `OpTableColumnsDefault` (spec_more.go:86-105). -/
def OpTableColumnsDefault : List Text :=
  [{ Display := "Method", Slug := "method" },
    { Display := "Path", Slug := "path" },
    { Display := "OperationID", Slug := "operationId" },
    { Display := "Summary", Slug := "summary" },
    { Display := "Tags", Slug := "tags" }]

/-- The `switch text.Slug` of `operationsTable` (spec_more.go:62-78): the cell one
column contributes to the row of an operation. -/
def cell (tgs : List TagGroup) (path method : String) (op : Operation) (text : Text) : String :=
  if text.Slug = "method" then method
  else if text.Slug = "path" then path
  else if text.Slug = "operationId" then op.OperationID
  else if text.Slug = "summary" then op.Summary
  else if text.Slug = "tags" then Join op.Tags ", "
  else if text.Slug = "x-tag-groups" then Join (GetTagGroupNamesForTagNames tgs op.Tags) ", "
  else GetExtensionPropStringOrEmpty op.ExtensionProps text.Slug

/-- The callback `operationsTable` hands to `VisitOperations`
(spec_more.go:58-82): build the row of the operation and append it to the records. -/
def appendRow (columns : TextSet) (tgs : List TagGroup) (path method : String)
    (op : Operation) (tbl : Table) : Table :=
  let row := columns.Texts.foldl (fun row text => row ++ [cell tgs path method op text]) []
  { tbl with Records := tbl.Records ++ [row] }

/-- `operationsTable` (spec_more.go:42-84).  `none` is the panic of reading
`spec.Info.Title` through a nil document pointer or a nil `Info` pointer; otherwise
the returned pair `(*table.Table, error)`. -/
def operationsTable (spec : Option Swagger) (columns : Option TextSet) :
    Option (Except swagger2.Error Table) :=
  let columns : TextSet :=
    match columns with
    | none => { Texts := OpTableColumnsDefault }
    | some columns => columns
  let tbl := NewTable
  match spec with
  | none => none
  | some spec =>
    match spec.Info with
    | none => none
    | some info =>
      let tbl := { tbl with Name := info.Title }
      let tbl := { tbl with Columns := columns.DisplayTexts }
      let specMore : SpecMore := { Spec := some spec }
      match specMore.TagGroups with
      | none => none
      | some (Except.error err) => some (Except.error err)
      | some (Except.ok tgs) =>
        some (Except.ok (VisitOperations spec (appendRow columns tgs) tbl))

/-- `SpecMore.OperationsTable` (spec_more.go:38-40). -/
def SpecMore.OperationsTable (sm : SpecMore) (columns : Option TextSet) :
    Option (Except swagger2.Error Table) :=
  operationsTable sm.Spec columns

/-- The `range sm.Spec.Components.Schemas` loop of `SchemaNameExists`
(spec_more.go:194-211) over the entries still to visit.  The result is the returned
flag and the schema map as the loop leaves it: `schemaRef` is a pointer, so the
assignment to `schemaRef.Ref` changes the entry of the document. -/
def schemaLoop (schemaName : String) (includeNil : Bool)
    (schemas : GoMapData (Option SchemaOrRef)) :
    List (String × Option SchemaOrRef) → Bool × GoMapData (Option SchemaOrRef)
  | [] => (false, schemas)
  | (schemaNameTry, schemaRef) :: rest =>
    if schemaNameTry = schemaName then
      if includeNil then (true, schemas)
      else
        match schemaRef with
        | none => (false, schemas)
        | some schemaRef =>
          let schemaRef := { schemaRef with Ref := TrimSpace schemaRef.Ref }
          let schemas := GoMap.assign schemaNameTry (some schemaRef) schemas
          if len schemaRef.Ref > 0 then (true, schemas)
          else if schemaRef.Value = none then (false, schemas)
          else (true, schemas)
    else schemaLoop schemaName includeNil schemas rest

/-- `SpecMore.SchemaNameExists` (spec_more.go:193-213): the returned flag and the
document after the call.  `none` is the panic of reading through a nil document
pointer. -/
def SpecMore.SchemaNameExists (sm : SpecMore) (schemaName : String) (includeNil : Bool) :
    Option (Bool × SpecMore) :=
  match sm.Spec with
  | none => none
  | some spec =>
    match spec.Schemas with
    | none => some (false, sm)
    | some schemas =>
      let result := schemaLoop schemaName includeNil schemas schemas.entries
      some (result.1, { Spec := some { spec with Schemas := some result.2 } })

/-- `SpecMore.ServerURL` (spec_more.go:217-223) for an unsigned 64-bit `index`.
`none` is a panic: a nil document pointer or an index out of range. -/
def SpecMore.ServerURL (sm : SpecMore) (index : Nat) : Option String :=
  match sm.Spec with
  | none => none
  | some spec =>
    if wrapInt64 (wrapInt64 ((index % 2 ^ 64 : Nat) : Int) + 1) > (spec.Servers.length : Int) then
      some ""
    else
      match spec.Servers[index % 2 ^ 64]? with
      | none => none
      | some server => some (TrimSpace server)

/-- The statement `tagsMap[tagName]++` of `TagsMap`, preceded by the trim, the
emptiness test and the initialisation to 0 (spec_more.go:254-260 and 266-272). -/
def countTag (tagsMap : GoMapData Int) (name : String) : GoMapData Int :=
  let tagName := TrimSpace name
  if len tagName > 0 then
    let tagsMap :=
      match GoMap.get (some tagsMap) tagName with
      | none => GoMap.assign tagName 0 tagsMap
      | some _ => tagsMap
    match GoMap.get (some tagsMap) tagName with
    | none => GoMap.assign tagName (0 + 1) tagsMap
    | some count => GoMap.assign tagName (count + 1) tagsMap
  else tagsMap

/-- `SpecMore.TagsMap` (spec_more.go:250-277).  `none` is the panic of reading
through a nil document pointer. -/
def SpecMore.TagsMap (sm : SpecMore) (inclTop inclOps : Bool) : Option (GoMapData Int) :=
  let tagsMap : GoMapData Int := GoMap.empty
  match sm.Spec with
  | none => if inclTop || inclOps then none else some tagsMap
  | some spec =>
    let tagsMap :=
      if inclTop then spec.Tags.foldl (fun tagsMap tag => countTag tagsMap tag.Name) tagsMap
      else tagsMap
    let tagsMap :=
      if inclOps then
        VisitOperations spec
          (fun _ _ op tagsMap => op.Tags.foldl (fun tagsMap tagName => countTag tagsMap tagName)
            tagsMap)
          tagsMap
      else tagsMap
    some tagsMap

/-- The (path, method, operation) triples of a document in visiting order: for every
path, its present method slots in the fixed method order. -/
def visitedOperations (spec : Swagger) : List (String × String × Operation) :=
  spec.Paths.entries.flatMap (fun entry =>
    Method.all.filterMap (fun m => (slot entry.2 m).map (fun op => (entry.1, m.name, op))))

/-- The column list `operationsTable` works with: the given one, or the default list
when none is given. -/
def columnsOrDefault (columns : Option TextSet) : TextSet :=
  match columns with
  | none => { Texts := OpTableColumnsDefault }
  | some columns => columns

/-- The tag groups a document declares (none when it has no tag-group extension). -/
def declaredGroups (spec : Swagger) : List TagGroup :=
  match spec.XTagGroups with
  | some (some groups) => groups
  | _ => []

/-- The name-trimmed copy of a schema entry; a nil entry stays nil. -/
def trimRef (entry : Option SchemaOrRef) : Option SchemaOrRef :=
  entry.map (fun schemaRef => { schemaRef with Ref := TrimSpace schemaRef.Ref })

/-- Whether a schema entry counts as existing when nil entries are not included: it
is not nil, and its `Ref` is non-empty after trimming or its `Value` is present. -/
def entryExists : Option SchemaOrRef → Bool
  | none => false
  | some schemaRef => decide (TrimSpace schemaRef.Ref ≠ "") || schemaRef.Value.isSome

/-- What the loop of `SchemaNameExists` does when it reaches the entry under the
queried name. -/
def schemaHit (schemaName : String) (includeNil : Bool)
    (schemas : GoMapData (Option SchemaOrRef)) (entry : Option SchemaOrRef) :
    Bool × GoMapData (Option SchemaOrRef) :=
  if includeNil then (true, schemas)
  else
    match entry with
    | none => (false, schemas)
    | some schemaRef => (entryExists (some schemaRef), GoMap.assign schemaName (trimRef entry) schemas)

/-- The flag the specification text promises for an entry when nil entries are not
included: false for an empty `Ref` with a nil `Value`, true for every other entry. -/
def claimedExists (schemaRef : SchemaOrRef) : Bool :=
  !(decide (schemaRef.Ref = "") && schemaRef.Value.isNone)

/-- The whitespace-trimmed names of the top-level tags of a document, in order. -/
def trimmedTagNames (spec : Swagger) : List String :=
  spec.Tags.map (fun tag => TrimSpace tag.Name)

/-! ### Example documents -/

/-- A document whose only schema entry is `Pet`. -/
def schemaDoc (entry : Option SchemaOrRef) : Swagger :=
  { Swagger.zero with Schemas := GoMap.single "Pet" entry }

/-- A document with the given top-level tag names. -/
def tagDoc (names : List String) : Swagger :=
  { Swagger.zero with Tags := names.map tagNamed }

/-- A document with one server. -/
def serverDoc : Swagger :=
  { Swagger.zero with Servers := [" https://api.example.com/v1 "] }

/-- The operation `ping`: summary `Ping`, tag `health`. -/
def pingOp : Operation :=
  { OperationID := "ping", Summary := "Ping", Tags := ["health"], ExtensionProps := [] }

/-- A document titled `Health` whose only operation is GET `/ping`. -/
def pingDoc : Swagger :=
  { Swagger.zero with
    Info := some { Title := "Health" },
    Paths := GoMap.single "/ping" { PathItem.zero with Get := some pingOp } }

/-- The document with GET `/ping` and a declared tag group, without root metadata
(nil `Info`). -/
def untitledDoc : Swagger :=
  { pingDoc with Info := none, XTagGroups := some (some [{ Name := "Core", Tags := ["health"] }]) }

/-- A document titled `Empty` with no paths. -/
def emptyDoc : Swagger :=
  { Swagger.zero with Info := some { Title := "Empty" } }

/-- A path item with a DELETE and a GET operation. -/
def deleteAndGet : PathItem :=
  { PathItem.zero with Delete := some (opNamed "remove"), Get := some (opNamed "read") }

/-- A document with the paths `/x` (POST) and `/ping` (DELETE and GET), visited in
that order. -/
def twoPathDoc : Swagger :=
  { Swagger.zero with
    Paths := some ⟨[("/x", postOnly), ("/ping", deleteAndGet)], by decide⟩ }

/-- The document with the paths `/x` and `/ping`, titled `Inventory`. -/
def inventoryDoc : Swagger :=
  { twoPathDoc with Info := some { Title := "Inventory" } }

end openapi3

/-! # Theorems -/

/-! ## Association lists and maps -/

theorem lookup_cons_ite {V : Type} (a k : String) (b : V) (es : List (String × V)) :
    List.lookup a ((k, b) :: es) = if a = k then some b else List.lookup a es := by
  by_cases h : a = k
  · simp [List.lookup, h]
  · have hb : (a == k) = false := by simpa using h
    simp [List.lookup, hb, h]

theorem lookup_eq_none_of_not_mem {V : Type} (k : String) (es : List (String × V))
    (h : k ∉ es.map Prod.fst) : List.lookup k es = none := by
  induction es with
  | nil => rfl
  | cons hd tl ih =>
    obtain ⟨a, b⟩ := hd
    simp only [List.map_cons, List.mem_cons, not_or] at h
    rw [lookup_cons_ite, if_neg h.1, ih h.2]

theorem lookup_assignList {V : Type} (k k' : String) (v : V) (l : List (String × V)) :
    (assignList k v l).lookup k' = if k' = k then some v else l.lookup k' := by
  induction l with
  | nil => simp [assignList, lookup_cons_ite]
  | cons hd tl ih =>
    obtain ⟨a, b⟩ := hd
    by_cases hak : a = k
    · subst hak
      simp only [assignList, if_true, lookup_cons_ite]
      by_cases h : k' = a <;> simp [h]
    · simp only [assignList, hak, if_false, lookup_cons_ite, ih]
      by_cases h : k' = a
      · have : ¬ k' = k := fun h2 => hak (h ▸ h2)
        simp [h, this, hak]
      · simp [h]

theorem lookup_eq_some_iff_mem {V : Type} (es : List (String × V))
    (h : (es.map Prod.fst).Nodup) (k : String) (v : V) :
    List.lookup k es = some v ↔ (k, v) ∈ es := by
  induction es with
  | nil => simp [List.lookup]
  | cons hd tl ih =>
    obtain ⟨a, b⟩ := hd
    simp only [List.map_cons, List.nodup_cons] at h
    rw [lookup_cons_ite, List.mem_cons]
    by_cases hk : k = a
    · subst hk
      have hnot : (k, v) ∉ tl := fun hm => h.1 (List.mem_map_of_mem Prod.fst hm)
      simp [hnot]
      exact eq_comm
    · have hne : (k, v) ≠ (a, b) := fun he => hk (congrArg Prod.fst he)
      simp [hk, hne, ih h.2]

theorem len_pos_iff (s : String) : 0 < len s ↔ s ≠ "" := by
  obtain ⟨cs⟩ := s
  cases cs with
  | nil => simp [len, String.utf8ByteSize, String.utf8ByteSize.go]
  | cons c cs =>
    have hpos := Char.utf8Size_pos c
    have hne : (String.mk (c :: cs)) ≠ "" := by
      intro h
      have := congrArg String.data h
      simp at this
    simp only [len, String.utf8ByteSize, String.utf8ByteSize.go, ne_eq, hne, not_false_eq_true,
      iff_true]
    omega

theorem len_empty : len "" = 0 := rfl

theorem lookup_isSome_iff_mem_keys {V : Type} (k : String) (es : List (String × V)) :
    (List.lookup k es).isSome ↔ k ∈ es.map Prod.fst := by
  induction es with
  | nil => simp [List.lookup]
  | cons hd tl ih =>
    obtain ⟨a, b⟩ := hd
    rw [lookup_cons_ite, List.map_cons, List.mem_cons]
    by_cases h : k = a
    · simp [h]
    · simp [h, ih]

namespace GoMap

variable {V : Type}

theorem get_some_assign (k k' : String) (v : V) (d : GoMapData V) :
    get (some (assign k v d)) k' = if k' = k then some v else get (some d) k' := by
  simp only [get, entries, assign, lookup_assignList]

/-- A `range` loop that assigns every visited entry into `m` leaves, under each
key, the visited entry if there is one and the old entry of `m` otherwise; it
never turns a nil map into a map or back. -/
theorem rangeSet_spec (es : List (String × V)) (hes : (es.map Prod.fst).Nodup)
    (m r : GoMap V)
    (h : es.foldlM (fun (m : GoMap V) (e : String × V) => set m e.1 e.2) m = some r) :
    (∀ k, get r k = match es.lookup k with
      | some v => some v
      | none => get m k) ∧ r.isSome = m.isSome := by
  induction es generalizing m with
  | nil =>
    simp only [List.foldlM_nil, pure, Option.some.injEq] at h
    subst h
    simp [List.lookup]
  | cons hd tl ih =>
    obtain ⟨a, b⟩ := hd
    simp only [List.map_cons, List.nodup_cons] at hes
    cases m with
    | none => simp [List.foldlM_cons, set] at h
    | some d =>
      simp only [List.foldlM_cons, set, Option.bind_eq_bind, Option.some_bind] at h
      obtain ⟨h1, h2⟩ := ih hes.2 _ h
      refine ⟨fun k => ?_, by simpa using h2⟩
      rw [h1 k, get_some_assign, lookup_cons_ite]
      by_cases hk : k = a
      · subst hk
        simp [lookup_eq_none_of_not_mem k tl hes.1]
      · simp [hk]

/-- The `range` loop never panics on a non-nil map. -/
theorem rangeSet_some (es : List (String × V)) (d : GoMapData V) :
    ∃ d', es.foldlM (fun (m : GoMap V) (e : String × V) => set m e.1 e.2) (some d)
      = some (some d') := by
  induction es generalizing d with
  | nil => exact ⟨d, rfl⟩
  | cons hd tl ih =>
    simp only [List.foldlM_cons, set, Option.bind_eq_bind, Option.some_bind]
    exact ih _

/-- The `range` loop panics on the nil map as soon as it visits one entry. -/
theorem rangeSet_none (es : List (String × V)) :
    es.foldlM (fun (m : GoMap V) (e : String × V) => set m e.1 e.2) none
      = if es.isEmpty then some none else none := by
  cases es with
  | nil => rfl
  | cons hd tl => simp [List.foldlM_cons, set]

theorem entries_nodup (m : GoMap V) : ((entries m).map Prod.fst).Nodup := by
  cases m with
  | none => exact List.nodup_nil
  | some d => exact d.nodup

theorem assignList_self (k : String) (v : V) (l : List (String × V))
    (h : l.lookup k = some v) : assignList k v l = l := by
  induction l with
  | nil => simp [List.lookup] at h
  | cons hd tl ih =>
    obtain ⟨a, b⟩ := hd
    rw [lookup_cons_ite] at h
    by_cases hk : k = a
    · subst hk
      simp only [if_true, Option.some.injEq] at h
      simp [assignList, h]
    · have hak : ¬ a = k := fun e => hk e.symm
      simp only [hk, if_false] at h
      simp [assignList, hak, ih h]

theorem assign_self (k : String) (v : V) (d : GoMapData V)
    (h : d.entries.lookup k = some v) : assign k v d = d := by
  obtain ⟨es, nd⟩ := d
  simp only [assign, assignList_self k v es h]

/-- Assigning into a map the entries it already holds leaves it as it is. -/
theorem rangeSet_self (d : GoMapData V) (es : List (String × V))
    (h : ∀ e ∈ es, d.entries.lookup e.1 = some e.2) :
    es.foldlM (fun (m : GoMap V) (e : String × V) => set m e.1 e.2) (some d) = some (some d) := by
  induction es with
  | nil => rfl
  | cons e tl ih =>
    simp only [List.foldlM_cons, set, Option.bind_eq_bind, Option.some_bind]
    rw [assign_self e.1 e.2 d (h e (List.mem_cons_self _ _))]
    exact ih (fun e' he' => h e' (List.mem_cons_of_mem _ he'))

theorem lookup_of_mem_entries (d : GoMapData V) (e : String × V) (h : e ∈ d.entries) :
    d.entries.lookup e.1 = some e.2 :=
  (lookup_eq_some_iff_mem d.entries d.nodup e.1 e.2).mpr h

end GoMap

/-! ## `swagger2/merge.go` -/

namespace swagger2

/-- The name set `tagsMap` that `MergeTags` builds holds exactly the master names. -/
theorem tagsMap_lookup (tags : List Tag) (init : List (String × Int)) (k : String) :
    (tags.foldl (fun tagsMap tag => assignList tag.Name (1 : Int) tagsMap) init).lookup k = none ↔
      k ∉ tags.map Tag.Name ∧ init.lookup k = none := by
  induction tags generalizing init with
  | nil => simp
  | cons t ts ih =>
    simp only [List.foldl_cons, ih, lookup_assignList, List.map_cons, List.mem_cons, not_or]
    by_cases h : k = t.Name
    · simp [h]
    · simp [h]

theorem appendLoop_eq (keep : Tag → Bool) (extra acc : List Tag) :
    extra.foldl (fun tags tag => if keep (trimTag tag) then tags ++ [trimTag tag] else tags) acc
      = acc ++ (extra.map trimTag).filter keep := by
  induction extra generalizing acc with
  | nil => simp
  | cons t ts ih =>
    simp only [List.foldl_cons, ih, List.map_cons, List.filter_cons]
    by_cases h : keep (trimTag t) <;> simp [h]

theorem MergeTags_Tags (specMaster specExtra : Specification) :
    (MergeTags specMaster specExtra).Tags =
      specMaster.Tags ++ (specExtra.Tags.map trimTag).filter
        (fun tag => decide (tag.Name ∉ specMaster.Tags.map Tag.Name)) := by
  rw [← appendLoop_eq]
  unfold MergeTags
  simp only
  congr 1
  funext tags tag
  have h := tagsMap_lookup specMaster.Tags [] (TrimSpace tag.Name)
  simp only [List.lookup, and_true] at h
  cases hl : List.lookup (TrimSpace tag.Name)
      (specMaster.Tags.foldl (fun tagsMap tag => assignList tag.Name (1 : Int) tagsMap) []) with
  | none =>
    have hm := h.mp hl
    simp only [trimTag, decide_eq_true_eq]
    rw [if_pos hm]
  | some x =>
    have hm : ¬ (TrimSpace tag.Name ∉ specMaster.Tags.map Tag.Name) := by
      intro hn
      rw [h.mpr hn] at hl
      cases hl
    simp only [trimTag, decide_eq_true_eq]
    rw [if_neg hm]

theorem MergeTags_frame (m e : Specification) :
    (MergeTags m e).Paths = m.Paths ∧ (MergeTags m e).Definitions = m.Definitions ∧
      (MergeTags m e).Title = m.Title ∧ (MergeTags m e).Servers = m.Servers :=
  ⟨rfl, rfl, rfl, rfl⟩

theorem MergePaths_spec (m e r : Specification) (h : MergePaths m e = some r) :
    r.Tags = m.Tags ∧ r.Title = m.Title ∧ r.Servers = m.Servers ∧
      r.Definitions = m.Definitions ∧ r.Paths.isSome = m.Paths.isSome ∧
      ∀ k, r.Paths.get k = overwrite m.Paths e.Paths k := by
  unfold MergePaths at h
  obtain ⟨paths, hp, rfl⟩ := Option.map_eq_some'.mp h
  obtain ⟨h1, h2⟩ := GoMap.rangeSet_spec _ (GoMap.entries_nodup e.Paths) _ _ hp
  exact ⟨rfl, rfl, rfl, rfl, h2, fun k => by rw [h1 k]; rfl⟩

theorem MergeDefinitions_spec (m e r : Specification) (h : MergeDefinitions m e = some r) :
    r.Tags = m.Tags ∧ r.Title = m.Title ∧ r.Servers = m.Servers ∧
      r.Paths = m.Paths ∧ r.Definitions.isSome = m.Definitions.isSome ∧
      ∀ k, r.Definitions.get k = overwrite m.Definitions e.Definitions k := by
  unfold MergeDefinitions at h
  obtain ⟨defs, hp, rfl⟩ := Option.map_eq_some'.mp h
  obtain ⟨h1, h2⟩ := GoMap.rangeSet_spec _ (GoMap.entries_nodup e.Definitions) _ _ hp
  exact ⟨rfl, rfl, rfl, rfl, h2, fun k => by rw [h1 k]; rfl⟩

theorem MergePaths_some (m e : Specification)
    (hP : m.Paths.isSome ∨ e.Paths.entries = []) : ∃ r, MergePaths m e = some r := by
  unfold MergePaths
  cases hm : m.Paths with
  | some d =>
    obtain ⟨d', hd⟩ := GoMap.rangeSet_some e.Paths.entries d
    exact ⟨_, by rw [hd]; rfl⟩
  | none =>
    rcases hP with hP | hP
    · simp [hm] at hP
    · rw [hP]; exact ⟨_, rfl⟩

theorem MergeDefinitions_some (m e : Specification)
    (hD : m.Definitions.isSome ∨ e.Definitions.entries = []) :
    ∃ r, MergeDefinitions m e = some r := by
  unfold MergeDefinitions
  cases hm : m.Definitions with
  | some d =>
    obtain ⟨d', hd⟩ := GoMap.rangeSet_some e.Definitions.entries d
    exact ⟨_, by rw [hd]; rfl⟩
  | none =>
    rcases hD with hD | hD
    · simp [hm] at hD
    · rw [hD]; exact ⟨_, rfl⟩

/-- What `Merge` returns when it returns. -/
theorem Merge_spec (m e r : Specification) (h : Merge m e = some r) :
    r.Tags = (MergeTags m e).Tags ∧ r.Title = m.Title ∧ r.Servers = m.Servers ∧
      r.Paths.isSome = m.Paths.isSome ∧ r.Definitions.isSome = m.Definitions.isSome ∧
      (∀ k, r.Paths.get k = overwrite m.Paths e.Paths k) ∧
      ∀ k, r.Definitions.get k = overwrite m.Definitions e.Definitions k := by
  unfold Merge at h
  simp only at h
  cases hp : MergePaths (MergeTags m e) e with
  | none => rw [hp] at h; cases h
  | some mp =>
    rw [hp] at h
    simp only at h
    obtain ⟨a1, a2, a3, a4, a5, a6⟩ := MergePaths_spec _ _ _ hp
    obtain ⟨b1, b2, b3, b4, b5, b6⟩ := MergeDefinitions_spec _ _ _ h
    obtain ⟨c1, c2, c3, c4⟩ := MergeTags_frame m e
    refine ⟨b1.trans a1, (b2.trans a2).trans c3, (b3.trans a3).trans c4, ?_, ?_, ?_, ?_⟩
    · rw [b4, a5, c1]
    · rw [b5, a4, c2]
    · intro k; rw [b4, a6 k, c1]
    · intro k; rw [b6 k, a4, c2]

/-- `Merge` returns unless it has to write into a nil map. -/
theorem Merge_some (m e : Specification)
    (hP : m.Paths.isSome ∨ e.Paths.entries = [])
    (hD : m.Definitions.isSome ∨ e.Definitions.entries = []) :
    ∃ r, Merge m e = some r := by
  unfold Merge
  simp only
  obtain ⟨mp, hp⟩ := MergePaths_some (MergeTags m e) e hP
  rw [hp]
  simp only
  obtain ⟨a1, a2, a3, a4, a5, a6⟩ := MergePaths_spec _ _ _ hp
  exact MergeDefinitions_some mp e (by rw [a4]; exact hD)

/-- On document values, that is when the three documents share no map object, both
orders of merging keep, under every path, the item of the last document that
defines the path. -/
theorem nested_merges_paths (A B C ab bc left right : Specification)
    (h1 : Merge A B = some ab) (h2 : Merge ab C = some left)
    (h3 : Merge B C = some bc) (h4 : Merge A bc = some right) (p : String) :
    left.Paths.get p = right.Paths.get p := by
  have e1 := (Merge_spec _ _ _ h1).2.2.2.2.2.1 p
  have e2 := (Merge_spec _ _ _ h2).2.2.2.2.2.1 p
  have e3 := (Merge_spec _ _ _ h3).2.2.2.2.2.1 p
  have e4 := (Merge_spec _ _ _ h4).2.2.2.2.2.1 p
  rw [e2, e4]
  unfold overwrite at *
  rw [e1, e3]
  cases C.Paths.get p <;> cases B.Paths.get p <;> rfl

/-! ### Tags -/

/-- C1 (as stated, refuted): with master tags `["a"]` and extra tags `["a", " c "]`
the merged tag list is `["a", "c"]`, not the master tags followed by the extra tags
whose trimmed name no master tag shares (`["a", " c "]`): what is appended is the
name-trimmed copy of the tag of extra, not the tag itself. -/
theorem mergeTags_differs_from_claimed :
    (MergeTags (docWithTags ["a"]) (docWithTags ["a", " c "])).Tags
        = [tagNamed "a", tagNamed "c"] ∧
      claimedTags (docWithTags ["a"]) (docWithTags ["a", " c "])
        = [tagNamed "a", tagNamed " c "] ∧
      (MergeTags (docWithTags ["a"]) (docWithTags ["a", " c "])).Tags
        ≠ claimedTags (docWithTags ["a"]) (docWithTags ["a", " c "]) := by
  decide

/-- C1 (amended): for every master whose tag names carry no leading or trailing white
space and every extra, the tag list of `MergeTags(master, extra)`, and of
`Merge(master, extra)` whenever it returns, is master's tag list, unchanged and in
order, followed by the name-trimmed copies, in extra's order, of exactly those tags
of extra for which no tag of master has the same trimmed name. -/
theorem mergeTags_appends_trimmed_new (specMaster specExtra : Specification)
    (hMaster : ∀ tag ∈ specMaster.Tags, TrimSpace tag.Name = tag.Name) :
    (MergeTags specMaster specExtra).Tags =
        specMaster.Tags ++ (specExtra.Tags.filter
          (fun tag => decide
            (TrimSpace tag.Name ∉ specMaster.Tags.map (fun m => TrimSpace m.Name)))).map trimTag ∧
      ∀ merged, Merge specMaster specExtra = some merged →
        merged.Tags = specMaster.Tags ++ (specExtra.Tags.filter
          (fun tag => decide
            (TrimSpace tag.Name ∉ specMaster.Tags.map (fun m => TrimSpace m.Name)))).map trimTag := by
  have hnames : specMaster.Tags.map (fun m => TrimSpace m.Name) = specMaster.Tags.map Tag.Name :=
    List.map_congr_left hMaster
  have key : (MergeTags specMaster specExtra).Tags =
      specMaster.Tags ++ (specExtra.Tags.filter
        (fun tag => decide
          (TrimSpace tag.Name ∉ specMaster.Tags.map (fun m => TrimSpace m.Name)))).map trimTag := by
    rw [MergeTags_Tags, List.filter_map, hnames]
    rfl
  exact ⟨key, fun _ h => (Merge_spec _ _ _ h).1.trans key⟩

/-- C1 witness: master tags `[a, b]` and extra tags `[b, c]` merge to `[a, b, c]`. -/
theorem mergeTags_appends_trimmed_new_witness :
    (∀ tag ∈ (docWithTags ["a", "b"]).Tags, TrimSpace tag.Name = tag.Name) ∧
      Merge (docWithTags ["a", "b"]) (docWithTags ["b", "c"]) = some (docWithTags ["a", "b", "c"]) ∧
      (docWithTags ["a", "b", "c"]).Tags =
        (docWithTags ["a", "b"]).Tags ++ ((docWithTags ["b", "c"]).Tags.filter
          (fun tag => decide
            (TrimSpace tag.Name ∉
              (docWithTags ["a", "b"]).Tags.map (fun m => TrimSpace m.Name)))).map trimTag :=
  ⟨by decide, by decide,
    (mergeTags_appends_trimmed_new (docWithTags ["a", "b"]) (docWithTags ["b", "c"])
      (by decide)).2 (docWithTags ["a", "b", "c"]) (by decide)⟩

/-! ### Paths and definitions -/

/-- C2 (as stated, refuted): a master with a path map but no definition map, merged
with an extra that has a definition, panics in `MergeDefinitions`; no merged
document, hence no path map, comes back although extra defines `/x`. -/
theorem merge_panics_with_paths_present :
    docWithoutDefinitions.Paths.isSome = true ∧
      (docFull postOnly ⟨"", none⟩).Paths.get "/x" = some postOnly ∧
      Merge docWithoutDefinitions (docFull postOnly ⟨"", none⟩) = none ∧
      ¬ ∃ merged, Merge docWithoutDefinitions (docFull postOnly ⟨"", none⟩) = some merged ∧
          merged.Paths.get "/x" = some postOnly := by
  refine ⟨by decide, by decide, by decide, ?_⟩
  rintro ⟨merged, h, _⟩
  have hn : Merge docWithoutDefinitions (docFull postOnly ⟨"", none⟩) = none := by decide
  rw [hn] at h
  cases h

/-- C2 (amended): when master's path map is present and the definitions step has no
nil map to write into (master's definition map is present or extra has no
definitions), `Merge(master, extra)` returns a document whose path map holds, for
every path `p`, extra's item when extra defines `p`, master's item when only master
defines `p`, and no entry otherwise. -/
theorem merge_paths_overwrite (specMaster specExtra : Specification)
    (hPaths : specMaster.Paths.isSome)
    (hDefs : specMaster.Definitions.isSome ∨ specExtra.Definitions.entries = []) :
    ∃ merged, Merge specMaster specExtra = some merged ∧
      ∀ p, merged.Paths.get p = overwrite specMaster.Paths specExtra.Paths p := by
  obtain ⟨merged, h⟩ := Merge_some specMaster specExtra (Or.inl hPaths) hDefs
  exact ⟨merged, h, (Merge_spec _ _ _ h).2.2.2.2.2.1⟩

/-- C2 witness: master `/x` with GET merged with extra `/x` with POST holds `/x`
with POST only. -/
theorem merge_paths_overwrite_witness :
    (docWithPath getOnly).Paths.isSome ∧
      ((docWithPath getOnly).Definitions.isSome ∨ (docWithPath postOnly).Definitions.entries = []) ∧
      (∃ merged, Merge (docWithPath getOnly) (docWithPath postOnly) = some merged ∧
        ∀ p, merged.Paths.get p
          = overwrite (docWithPath getOnly).Paths (docWithPath postOnly).Paths p) ∧
      overwrite (docWithPath getOnly).Paths (docWithPath postOnly).Paths "/x" = some postOnly ∧
      postOnly.Get = none :=
  ⟨by decide, Or.inl (by decide),
    merge_paths_overwrite (docWithPath getOnly) (docWithPath postOnly) (by decide)
      (Or.inl (by decide)),
    by decide, by decide⟩

/-- C3 (as stated, refuted): a master with a definition map but no path map, merged
with an extra that has a path, panics in `MergePaths`; no merged document, hence no
definition map, comes back although extra defines `Pet`. -/
theorem merge_panics_with_definitions_present :
    docWithoutPaths.Definitions.isSome = true ∧
      (docFull postOnly ⟨"#/definitions/Animal", none⟩).Definitions.get "Pet"
        = some ⟨"#/definitions/Animal", none⟩ ∧
      Merge docWithoutPaths (docFull postOnly ⟨"#/definitions/Animal", none⟩) = none ∧
      ¬ ∃ merged,
          Merge docWithoutPaths (docFull postOnly ⟨"#/definitions/Animal", none⟩) = some merged ∧
          merged.Definitions.get "Pet" = some ⟨"#/definitions/Animal", none⟩ := by
  refine ⟨by decide, by decide, by decide, ?_⟩
  rintro ⟨merged, h, _⟩
  have hn : Merge docWithoutPaths (docFull postOnly ⟨"#/definitions/Animal", none⟩) = none := by
    decide
  rw [hn] at h
  cases h

/-- C3 (amended): when master's definition map is present and the paths step has no
nil map to write into (master's path map is present or extra has no paths),
`Merge(master, extra)` returns a document whose definition map holds, for every
name `n`, extra's definition when extra defines `n`, master's definition when only
master defines `n`, and no entry otherwise. -/
theorem merge_definitions_overwrite (specMaster specExtra : Specification)
    (hDefs : specMaster.Definitions.isSome)
    (hPaths : specMaster.Paths.isSome ∨ specExtra.Paths.entries = []) :
    ∃ merged, Merge specMaster specExtra = some merged ∧
      ∀ n, merged.Definitions.get n
        = overwrite specMaster.Definitions specExtra.Definitions n := by
  obtain ⟨merged, h⟩ := Merge_some specMaster specExtra hPaths (Or.inl hDefs)
  exact ⟨merged, h, (Merge_spec _ _ _ h).2.2.2.2.2.2⟩

/-- C3 witness: master `Pet` as an inline schema merged with extra `Pet` as a
reference holds the reference. -/
theorem merge_definitions_overwrite_witness :
    (docWithDefinition ⟨"", some ⟨"a pet"⟩⟩).Definitions.isSome ∧
      (∃ merged, Merge (docWithDefinition ⟨"", some ⟨"a pet"⟩⟩)
            (docWithDefinition ⟨"#/definitions/Animal", none⟩) = some merged ∧
        ∀ n, merged.Definitions.get n
          = overwrite (docWithDefinition ⟨"", some ⟨"a pet"⟩⟩).Definitions
              (docWithDefinition ⟨"#/definitions/Animal", none⟩).Definitions n) ∧
      overwrite (docWithDefinition ⟨"", some ⟨"a pet"⟩⟩).Definitions
          (docWithDefinition ⟨"#/definitions/Animal", none⟩).Definitions "Pet"
        = some ⟨"#/definitions/Animal", none⟩ ∧
      overwrite (docWithDefinition ⟨"", some ⟨"a pet"⟩⟩).Definitions
          (docWithDefinition ⟨"#/definitions/Animal", none⟩).Definitions "Owner" = none :=
  ⟨by decide,
    merge_definitions_overwrite (docWithDefinition ⟨"", some ⟨"a pet"⟩⟩)
      (docWithDefinition ⟨"#/definitions/Animal", none⟩) (by decide) (Or.inl (by decide)),
    by decide, by decide⟩

/-! ### Algebra of `Merge` -/

/-- Writing the visited entries through a reference and reading the reference
afterwards gives what the `range` loop computes on the map value, panic included. -/
theorem writeMap_fold {V : Type} (ref : Option Nat) (es : List (String × V))
    (maps : List (GoMapData V)) :
    (es.foldlM (fun (maps : List (GoMapData V)) (e : String × V) => writeMap maps ref e.1 e.2)
        maps).map (fun maps => readMap maps ref)
      = es.foldlM (fun (m : GoMap V) (e : String × V) => GoMap.set m e.1 e.2)
          (readMap maps ref) := by
  induction es generalizing maps with
  | nil => rfl
  | cons e tl ih =>
    cases ref with
    | none => rfl
    | some addr =>
      rw [List.foldlM_cons, List.foldlM_cons]
      cases hd : maps[addr]? with
      | none =>
        have hw : writeMap maps (some addr) e.1 e.2 = none := by simp only [writeMap, hd]
        have hr : readMap maps (some addr) = none := hd
        rw [hw, hr]
        rfl
      | some d =>
        have hlt : addr < maps.length := by
          by_contra hn
          rw [List.getElem?_eq_none (by omega)] at hd
          cases hd
        have hw : writeMap maps (some addr) e.1 e.2
            = some (maps.set addr (GoMap.assign e.1 e.2 d)) := by simp only [writeMap, hd]
        have hr : readMap maps (some addr) = some d := hd
        have hread : readMap (maps.set addr (GoMap.assign e.1 e.2 d)) (some addr)
            = some (GoMap.assign e.1 e.2 d) := by
          simp only [readMap, List.getElem?_set_self hlt]
        rw [hw, hr]
        simp only [Option.bind_eq_bind, Option.some_bind, GoMap.set]
        rw [ih, hread]
        rfl

/-- A single call of `Merge` in a state returns the document the value-level `Merge`
gives for the documents its arguments stand for, and panics when it does. -/
theorem MergeRef_load (heap : Heap) (specMaster specExtra : SpecificationRef) :
    (MergeRef heap specMaster specExtra).map (fun result => result.1.load result.2)
      = Merge (heap.load specMaster) (heap.load specExtra) := by
  have hp := writeMap_fold (MergeTagsRef specMaster specExtra).Paths
    (readMap heap.pathMaps specExtra.Paths).entries heap.pathMaps
  have hd := writeMap_fold (MergeTagsRef specMaster specExtra).Definitions
    (readMap heap.definitionMaps specExtra.Definitions).entries heap.definitionMaps
  simp only [MergeRef, Merge, MergePathsRef, MergePaths, MergeDefinitionsRef, MergeDefinitions]
  have ht : MergeTags (heap.load specMaster) (heap.load specExtra)
      = heap.load (MergeTagsRef specMaster specExtra) := rfl
  rw [ht]
  simp only [Heap.load] at hp hd ⊢
  rw [← hp]
  cases hf : List.foldlM
      (fun (maps : List (GoMapData PathItem)) (e : String × PathItem) =>
        writeMap maps (MergeTagsRef specMaster specExtra).Paths e.1 e.2)
      heap.pathMaps (readMap heap.pathMaps specExtra.Paths).entries with
  | none => rfl
  | some maps1 =>
    simp only [Option.map_some']
    rw [← hd]
    cases hg : List.foldlM
        (fun (maps : List (GoMapData SchemaOrRef)) (e : String × SchemaOrRef) =>
          writeMap maps (MergeTagsRef specMaster specExtra).Definitions e.1 e.2)
        heap.definitionMaps (readMap heap.definitionMaps specExtra.Definitions).entries with
    | none => rfl
    | some maps2 => rfl

/-- C4: `Merge` is not associative on paths.  `MergePaths` writes into the map object
of its first argument, so documents that share a map object see the write.  With
`A` holding `/x` with GET, `B` holding `/x` with POST and `C` the same document as
`A` (so `B` and `C` both define `/x`), `Merge(Merge(A,B),C)` returns a document
holding POST for `/x` and `Merge(A,Merge(B,C))`, evaluated from the same state,
returns one holding GET. -/
theorem merge_paths_not_associative :
    ∃ (heap : Heap) (A B C : SpecificationRef) (p : String),
      ((heap.load B).Paths.get p).isSome ∧ ((heap.load C).Paths.get p).isSome ∧
      (mergeLeftNested heap A B C).map (fun result => pathItemOf result p)
        = some (some postOnly) ∧
      (mergeRightNested heap A B C).map (fun result => pathItemOf result p)
        = some (some getOnly) ∧
      (mergeLeftNested heap A B C).map (fun result => pathItemOf result p)
        ≠ (mergeRightNested heap A B C).map (fun result => pathItemOf result p) :=
  ⟨twoMapHeap, docAt 0, docAt 1, docAt 0, "/x", by decide, by decide, by decide, by decide,
    by decide⟩

/-- C5: `Merge` is not commutative: there are documents `A` and `B` (`A` defining `/x`
with GET, `B` defining `/x` with POST) for which `Merge(A, B)` and `Merge(B, A)`
both return and differ; and whenever two documents define the same path with
different items and both merges return, each result holds the second argument's
item for that path, so the two results differ. -/
theorem merge_not_commutative :
    (∃ (A B ab ba : Specification),
      Merge A B = some ab ∧ Merge B A = some ba ∧ ab ≠ ba ∧
      ab.Paths.get "/x" = B.Paths.get "/x" ∧ ba.Paths.get "/x" = A.Paths.get "/x" ∧
      ab.Paths.get "/x" ≠ ba.Paths.get "/x") ∧
      ∀ (A B ab ba : Specification) (p : String) (a b : PathItem),
        A.Paths.get p = some a → B.Paths.get p = some b → a ≠ b →
        Merge A B = some ab → Merge B A = some ba →
        ab.Paths.get p = some b ∧ ba.Paths.get p = some a ∧ ab ≠ ba := by
  refine ⟨⟨docWithPath getOnly, docWithPath postOnly, docWithPath postOnly, docWithPath getOnly,
    by decide, by decide, by decide, by decide, by decide, by decide⟩, ?_⟩
  intro A B ab ba p a b hA hB hne hab hba
  have e1 : ab.Paths.get p = some b := by
    rw [(Merge_spec _ _ _ hab).2.2.2.2.2.1 p]
    unfold overwrite
    rw [hB]
  have e2 : ba.Paths.get p = some a := by
    rw [(Merge_spec _ _ _ hba).2.2.2.2.2.1 p]
    unfold overwrite
    rw [hA]
  refine ⟨e1, e2, fun heq => hne ?_⟩
  rw [heq, e2] at e1
  exact Option.some.inj e1

/-- C5 witness: `/x` with GET merged with `/x` with POST, in the two orders. -/
theorem merge_not_commutative_witness :
    (docWithPath getOnly).Paths.get "/x" = some getOnly ∧
      (docWithPath postOnly).Paths.get "/x" = some postOnly ∧
      getOnly ≠ postOnly ∧
      Merge (docWithPath getOnly) (docWithPath postOnly) = some (docWithPath postOnly) ∧
      Merge (docWithPath postOnly) (docWithPath getOnly) = some (docWithPath getOnly) ∧
      ((docWithPath postOnly).Paths.get "/x" = some postOnly ∧
        (docWithPath getOnly).Paths.get "/x" = some getOnly ∧
        docWithPath postOnly ≠ docWithPath getOnly) :=
  ⟨by decide, by decide, by decide, by decide, by decide,
    merge_not_commutative.2 (docWithPath getOnly) (docWithPath postOnly) (docWithPath postOnly)
      (docWithPath getOnly) "/x" getOnly postOnly (by decide) (by decide) (by decide)
      (by decide) (by decide)⟩

/-! ### Directory fold -/

/-- From the second file on, the loop of `MergeDirectory` is the left fold of
`Merge` over the documents read until the first failure or the end. -/
theorem mergeLoop_oks (i : Nat) (acc : Specification) (oks : List Specification)
    (rest : List (Except Error Specification)) :
    mergeLoop (i + 1) acc (oks.map Except.ok ++ rest) =
      match foldMerge acc oks with
      | none => none
      | some merged => mergeLoop (i + 1 + oks.length) merged rest := by
  induction oks generalizing i acc with
  | nil => rfl
  | cons d ds ih =>
    simp only [List.map_cons, List.cons_append, mergeLoop, Nat.succ_ne_zero, if_false,
      foldMerge, List.length_cons, List.append_eq]
    cases Merge acc d with
    | none => rfl
    | some merged =>
      simp only
      rw [ih (i + 1) merged]
      have : i + 1 + 1 + ds.length = i + 1 + (ds.length + 1) := by omega
      rw [this]

/-- The loop of `MergeDirectory` over files that parse until a first failure. -/
theorem mergeLoop_first_failure (oks : List Specification) (err : Error)
    (post : List (Except Error Specification)) :
    mergeLoop 0 Specification.zero (oks.map Except.ok ++ Except.error err :: post) =
      (mergedPrefix oks).map (fun acc => (acc, some err)) := by
  cases oks with
  | nil => rfl
  | cons d ds =>
    simp only [List.map_cons, List.cons_append, mergeLoop, if_true, mergedPrefix, List.append_eq]
    rw [mergeLoop_oks 0 d ds]
    cases foldMerge d ds with
    | none => rfl
    | some merged => rfl

/-- The loop of `MergeDirectory` over files that all parse. -/
theorem mergeLoop_all_ok (oks : List Specification) :
    mergeLoop 0 Specification.zero (oks.map Except.ok) =
      (mergedPrefix oks).map (fun acc => (acc, none)) := by
  cases oks with
  | nil => rfl
  | cons d ds =>
    simp only [List.map_cons, mergeLoop, if_true, mergedPrefix]
    have h := mergeLoop_oks 0 d ds []
    rw [List.append_nil] at h
    rw [h]
    cases foldMerge d ds with
    | none => rfl
    | some merged => rfl

/-- A list of parse results either has no failure or splits at its first failure. -/
theorem split_first_failure (files : List (Except Error Specification)) :
    (∃ oks : List Specification, files = oks.map Except.ok) ∨
      ∃ (oks : List Specification) (err : Error) (post : List (Except Error Specification)),
        files = oks.map Except.ok ++ Except.error err :: post := by
  induction files with
  | nil => exact Or.inl ⟨[], rfl⟩
  | cons f fs ih =>
    cases f with
    | error err => exact Or.inr ⟨[], err, fs, rfl⟩
    | ok d =>
      rcases ih with ⟨oks, h⟩ | ⟨oks, err, post, h⟩
      · exact Or.inl ⟨d :: oks, by rw [h]; rfl⟩
      · exact Or.inr ⟨d :: oks, err, post, by rw [h]; rfl⟩

theorem MergeDirectory_nonempty (dir : String) (files : List (Except Error Specification))
    (h : files ≠ []) :
    MergeDirectory dir (Except.ok files) = mergeLoop 0 Specification.zero files := by
  simp [MergeDirectory, List.length_eq_zero, h]

/-- A left fold of `Merge` seeded with a document whose maps are both present never
panics. -/
theorem foldMerge_some (d : Specification) (ds : List Specification)
    (hP : d.Paths.isSome) (hD : d.Definitions.isSome) : ∃ merged, foldMerge d ds = some merged := by
  induction ds generalizing d with
  | nil => exact ⟨d, rfl⟩
  | cons e es ih =>
    obtain ⟨m, hm⟩ := Merge_some d e (Or.inl hP) (Or.inl hD)
    obtain ⟨-, -, -, h4, h5, -, -⟩ := Merge_spec _ _ _ hm
    simp only [foldMerge, hm]
    exact ih m (by rw [h4]; exact hP) (by rw [h5]; exact hD)


/-- C6 (code evaluated at the failing input): with three files of which the third
fails to parse, `MergeDirectory` returns, alongside the error, the merge of the
first two files and not the empty `Specification`. -/
theorem mergeDirectory_returns_partial_result :
    MergeDirectory "specs"
        (Except.ok [Except.ok (docWithPath getOnly), Except.ok (docWithTags ["a"]),
          Except.error "bad"])
      = some ({ docWithPath getOnly with Tags := [tagNamed "a"] }, some "bad") ∧
      Merge (docWithPath getOnly) (docWithTags ["a"])
        = some { docWithPath getOnly with Tags := [tagNamed "a"] } ∧
      { docWithPath getOnly with Tags := [tagNamed "a"] } ≠ Specification.zero := by
  decide

/-- C7 (as stated, refuted): the third file fails to parse, yet `MergeDirectory`
returns no error: merging the second file into the first, which has no definition
map, panics before the third file is read. -/
theorem mergeDirectory_panics_before_failure :
    MergeDirectory "specs"
        (Except.ok [Except.ok docWithoutDefinitions, Except.ok (docFull postOnly ⟨"", none⟩),
          Except.error "bad"]) = none ∧
      ¬ ∃ returned err, MergeDirectory "specs"
        (Except.ok [Except.ok docWithoutDefinitions, Except.ok (docFull postOnly ⟨"", none⟩),
          Except.error "bad"]) = some (returned, some err) := by
  have hn : MergeDirectory "specs"
      (Except.ok [Except.ok docWithoutDefinitions, Except.ok (docFull postOnly ⟨"", none⟩),
        Except.error "bad"]) = none := by decide
  refine ⟨hn, ?_⟩
  rintro ⟨returned, err, h⟩
  rw [hn] at h
  cases h

/-- C7 (amended): `MergeDirectory` returns an error if and only if the list of
matching files is empty, or some file fails to parse and the merges of the files
before the first failing one do not panic.  When a file fails, the outcome is the
first failing file's error next to the document accumulated before it (or the panic
of that accumulation), and it does not depend on any file after the failing one. -/
theorem mergeDirectory_error_iff (dir : String) (files : List (Except Error Specification)) :
    ((∃ returned err, MergeDirectory dir (Except.ok files) = some (returned, some err)) ↔
        files = [] ∨
        ∃ (oks : List Specification) (err : Error) (post : List (Except Error Specification)),
          files = oks.map Except.ok ++ Except.error err :: post ∧ (mergedPrefix oks).isSome) ∧
      ∀ (oks : List Specification) (err : Error) (post : List (Except Error Specification)),
        files = oks.map Except.ok ++ Except.error err :: post →
          MergeDirectory dir (Except.ok files)
            = (mergedPrefix oks).map (fun acc => (acc, some err)) ∧
          ∀ post', MergeDirectory dir (Except.ok (oks.map Except.ok ++ Except.error err :: post'))
            = MergeDirectory dir (Except.ok files) := by
  have hfail : ∀ (oks : List Specification) (err : Error)
      (post : List (Except Error Specification)),
      MergeDirectory dir (Except.ok (oks.map Except.ok ++ Except.error err :: post))
        = (mergedPrefix oks).map (fun acc => (acc, some err)) := by
    intro oks err post
    rw [MergeDirectory_nonempty dir _ (by simp), mergeLoop_first_failure]
  refine ⟨⟨?_, ?_⟩, ?_⟩
  · rintro ⟨returned, err, h⟩
    rcases split_first_failure files with ⟨oks, rfl⟩ | ⟨oks, err2, post, rfl⟩
    · cases oks with
      | nil => exact Or.inl rfl
      | cons d ds =>
        exfalso
        rw [MergeDirectory_nonempty dir _ (by simp), mergeLoop_all_ok] at h
        cases hm : mergedPrefix (d :: ds) with
        | none => rw [hm] at h; cases h
        | some acc => rw [hm] at h; cases h
    · refine Or.inr ⟨oks, err2, post, rfl, ?_⟩
      rw [hfail] at h
      cases hm : mergedPrefix oks with
      | none => rw [hm] at h; cases h
      | some acc => rfl
  · rintro (rfl | ⟨oks, err, post, rfl, hsome⟩)
    · exact ⟨Specification.zero, _, rfl⟩
    · rw [hfail]
      cases hm : mergedPrefix oks with
      | none => rw [hm] at hsome; cases hsome
      | some acc => exact ⟨acc, err, rfl⟩
  · rintro oks err post rfl
    exact ⟨hfail oks err post, fun post' => by rw [hfail, hfail]⟩

/-- C7 witness: three files with file 2 failing give file 2's error whatever
file 3 is. -/
theorem mergeDirectory_error_iff_witness :
    MergeDirectory "specs"
        (Except.ok [Except.ok (docWithPath getOnly), Except.error "bad",
          Except.ok (docWithTags ["a"])])
      = some (docWithPath getOnly, some "bad") ∧
      MergeDirectory "specs"
        (Except.ok [Except.ok (docWithPath getOnly), Except.error "bad",
          Except.ok docWithoutPaths])
      = MergeDirectory "specs"
        (Except.ok [Except.ok (docWithPath getOnly), Except.error "bad",
          Except.ok (docWithTags ["a"])]) ∧
      ∃ returned err, MergeDirectory "specs" (Except.ok []) = some (returned, some err) :=
  ⟨((mergeDirectory_error_iff "specs"
        [Except.ok (docWithPath getOnly), Except.error "bad", Except.ok (docWithTags ["a"])]).2
      [docWithPath getOnly] "bad" [Except.ok (docWithTags ["a"])] rfl).1,
    ((mergeDirectory_error_iff "specs"
        [Except.ok (docWithPath getOnly), Except.error "bad", Except.ok (docWithTags ["a"])]).2
      [docWithPath getOnly] "bad" [Except.ok (docWithTags ["a"])] rfl).2
      [Except.ok docWithoutPaths],
    (mergeDirectory_error_iff "specs" []).1.mpr (Or.inl rfl)⟩

/-- C8: for a non-empty list of files that all parse, to `d1, d2, ..., dn`,
`MergeDirectory` returns, without error, the left fold
`Merge(...Merge(Merge(d1, d2), d3)..., dn)` seeded with `d1` (and panics exactly when
that fold does); it is `d1` itself when `n = 1`, and the fold does return when both
maps of `d1` are present. -/
theorem mergeDirectory_left_fold (dir : String) (d : Specification)
    (ds : List Specification) :
    MergeDirectory dir (Except.ok ((d :: ds).map Except.ok))
        = (foldMerge d ds).map (fun merged => (merged, none)) ∧
      MergeDirectory dir (Except.ok [Except.ok d]) = some (d, none) ∧
      (d.Paths.isSome → d.Definitions.isSome →
        ∃ merged, foldMerge d ds = some merged ∧
          MergeDirectory dir (Except.ok ((d :: ds).map Except.ok)) = some (merged, none)) := by
  have h : MergeDirectory dir (Except.ok ((d :: ds).map Except.ok))
      = (foldMerge d ds).map (fun merged => (merged, none)) := by
    rw [MergeDirectory_nonempty dir _ (by simp), mergeLoop_all_ok]
    rfl
  refine ⟨h, ?_, fun hP hD => ?_⟩
  · rfl
  · obtain ⟨merged, hm⟩ := foldMerge_some d ds hP hD
    exact ⟨merged, hm, by rw [h, hm]; rfl⟩

/-- C8 witness: three files that parse give `Merge(Merge(d1, d2), d3)`. -/
theorem mergeDirectory_left_fold_witness :
    (docWithPath getOnly).Paths.isSome ∧ (docWithPath getOnly).Definitions.isSome ∧
      (Merge (docWithPath getOnly) (docWithPath postOnly)).bind
          (fun merged => Merge merged (docWithTags ["a"]))
        = some { docWithPath postOnly with Tags := [tagNamed "a"] } ∧
      ∃ merged, foldMerge (docWithPath getOnly) [docWithPath postOnly, docWithTags ["a"]]
          = some merged ∧
        MergeDirectory "specs" (Except.ok
          ((docWithPath getOnly :: [docWithPath postOnly, docWithTags ["a"]]).map Except.ok))
          = some (merged, none) :=
  ⟨by decide, by decide, by decide,
    (mergeDirectory_left_fold "specs" (docWithPath getOnly)
      [docWithPath postOnly, docWithTags ["a"]]).2.2 (by decide) (by decide)⟩

/-! ### Invariants of `Merge` -/

/-- C18 (as stated, refuted): the master has the single tag `a`, the extra has the
tags `c` and ` c`; both are appended as `c`, so the merged tags carry the name `c`
twice: the names appended from `extra` are not recorded in `tagsMap`. -/
theorem mergeTags_duplicates_extra_name :
    ((docWithTags ["a"]).Tags.map (fun tag => TrimSpace tag.Name)).Nodup ∧
      Merge (docWithTags ["a"]) (docWithTags ["c", " c"]) = some (docWithTags ["a", "c", "c"]) ∧
      ¬ ((docWithTags ["a", "c", "c"]).Tags.map Tag.Name).Nodup := by
  decide

/-- C18 (amended): for every master whose tags have pairwise distinct trimmed names
and every extra whose tags have pairwise distinct trimmed names, the tags of
`MergeTags(master, extra)`, and of `Merge(master, extra)` whenever it returns, have
pairwise distinct names. -/
theorem mergeTags_distinct_names (specMaster specExtra : Specification)
    (hMaster : (specMaster.Tags.map (fun tag => TrimSpace tag.Name)).Nodup)
    (hExtra : (specExtra.Tags.map (fun tag => TrimSpace tag.Name)).Nodup) :
    ((MergeTags specMaster specExtra).Tags.map Tag.Name).Nodup ∧
      ∀ merged, Merge specMaster specExtra = some merged →
        (merged.Tags.map Tag.Name).Nodup := by
  have key : ((MergeTags specMaster specExtra).Tags.map Tag.Name).Nodup := by
    rw [MergeTags_Tags, List.map_append, List.nodup_append]
    refine ⟨?_, ?_, ?_⟩
    · have hm : specMaster.Tags.map (fun tag => TrimSpace tag.Name)
          = (specMaster.Tags.map Tag.Name).map TrimSpace := by
        rw [List.map_map]; rfl
      rw [hm] at hMaster
      exact List.Nodup.of_map _ hMaster
    · have he : (specExtra.Tags.map trimTag).map Tag.Name
          = specExtra.Tags.map (fun tag => TrimSpace tag.Name) := by
        rw [List.map_map]; rfl
      have hsub : (((specExtra.Tags.map trimTag).filter
            (fun tag => decide (tag.Name ∉ specMaster.Tags.map Tag.Name))).map Tag.Name).Sublist
          ((specExtra.Tags.map trimTag).map Tag.Name) :=
        (List.filter_sublist _).map _
      rw [he] at hsub
      exact hExtra.sublist hsub
    · intro x hx1 hx2
      obtain ⟨t, ht, rfl⟩ := List.mem_map.mp hx2
      have hp := (List.mem_filter.mp ht).2
      simp only [decide_eq_true_eq] at hp
      exact hp hx1
  exact ⟨key, fun merged h => by rw [(Merge_spec _ _ _ h).1]; exact key⟩

/-- C18 witness: master tags `[a, b]` and extra tags `[b, c]` merge to the distinct
names `a, b, c`. -/
theorem mergeTags_distinct_names_witness :
    ((docWithTags ["a", "b"]).Tags.map (fun tag => TrimSpace tag.Name)).Nodup ∧
      ((docWithTags ["b", "c"]).Tags.map (fun tag => TrimSpace tag.Name)).Nodup ∧
      Merge (docWithTags ["a", "b"]) (docWithTags ["b", "c"]) = some (docWithTags ["a", "b", "c"]) ∧
      ((docWithTags ["a", "b", "c"]).Tags.map Tag.Name).Nodup :=
  ⟨by decide, by decide, by decide,
    (mergeTags_distinct_names (docWithTags ["a", "b"]) (docWithTags ["b", "c"]) (by decide)
      (by decide)).2 (docWithTags ["a", "b", "c"]) (by decide)⟩

theorem MergeTags_self (A : Specification) (hTags : ∀ tag ∈ A.Tags, TrimSpace tag.Name = tag.Name) :
    MergeTags A A = A := by
  have hT : (MergeTags A A).Tags = A.Tags := by
    rw [MergeTags_Tags]
    have : (A.Tags.map trimTag).filter (fun tag => decide (tag.Name ∉ A.Tags.map Tag.Name)) = [] := by
      rw [List.filter_eq_nil_iff]
      intro t ht
      obtain ⟨t0, ht0, rfl⟩ := List.mem_map.mp ht
      simp only [decide_eq_true_eq, not_not, trimTag, hTags t0 ht0]
      exact List.mem_map_of_mem Tag.Name ht0
    rw [this, List.append_nil]
  have hrec : MergeTags A A = { A with Tags := (MergeTags A A).Tags } := rfl
  rw [hrec, hT]

/-- C19: for every document `A` whose tag names have no leading or trailing white
space and whose path and definition maps are present, `Merge(A, A)` returns `A`:
no tag is added and no path or definition changes. -/
theorem merge_self (A : Specification)
    (hTags : ∀ tag ∈ A.Tags, TrimSpace tag.Name = tag.Name)
    (hPaths : A.Paths.isSome) (hDefs : A.Definitions.isSome) :
    Merge A A = some A := by
  obtain ⟨paths, hp⟩ := Option.isSome_iff_exists.mp hPaths
  obtain ⟨defs, hd⟩ := Option.isSome_iff_exists.mp hDefs
  have h1 : MergePaths A A = some A := by
    unfold MergePaths
    rw [hp]
    simp only [GoMap.entries]
    rw [GoMap.rangeSet_self paths paths.entries (fun e he => GoMap.lookup_of_mem_entries paths e he)]
    simp only [Option.map_some']
    rw [← hp]
  have h2 : MergeDefinitions A A = some A := by
    unfold MergeDefinitions
    rw [hd]
    simp only [GoMap.entries]
    rw [GoMap.rangeSet_self defs defs.entries (fun e he => GoMap.lookup_of_mem_entries defs e he)]
    simp only [Option.map_some']
    rw [← hd]
  unfold Merge
  simp only [MergeTags_self A hTags, h1, h2]

/-- C19 witness: the document with tags `a`, `b`, the path `/x` and the definition
`Pet` merged with itself. -/
theorem merge_self_witness :
    (∀ tag ∈ ({ docFull getOnly ⟨"", some ⟨"a pet"⟩⟩ with
        Tags := [tagNamed "a", tagNamed "b"] } : Specification).Tags,
        TrimSpace tag.Name = tag.Name) ∧
      Merge { docFull getOnly ⟨"", some ⟨"a pet"⟩⟩ with Tags := [tagNamed "a", tagNamed "b"] }
          { docFull getOnly ⟨"", some ⟨"a pet"⟩⟩ with Tags := [tagNamed "a", tagNamed "b"] }
        = some { docFull getOnly ⟨"", some ⟨"a pet"⟩⟩ with
            Tags := [tagNamed "a", tagNamed "b"] } :=
  ⟨by decide,
    merge_self { docFull getOnly ⟨"", some ⟨"a pet"⟩⟩ with Tags := [tagNamed "a", tagNamed "b"] }
      (by decide) (by decide) (by decide)⟩

/-- `Merge` reads only the tags, paths and definitions of `extra`. -/
theorem Merge_congr_extra (m e e2 : Specification) (hT : e2.Tags = e.Tags)
    (hP : e2.Paths = e.Paths) (hD : e2.Definitions = e.Definitions) :
    Merge m e2 = Merge m e := by
  simp only [Merge, MergeTags, MergePaths, MergeDefinitions, hT, hP, hD]

/-- C20: every field of `Merge(master, extra)` other than `Tags`, `Paths` and
`Definitions` (here the title and the servers) equals the corresponding field of
master, whenever `Merge` returns, which it does when both maps of master are
present; and the result does not depend on any other field of extra. -/
theorem merge_frame (specMaster specExtra : Specification) :
    (∀ merged, Merge specMaster specExtra = some merged →
        merged.Title = specMaster.Title ∧ merged.Servers = specMaster.Servers) ∧
      (specMaster.Paths.isSome → specMaster.Definitions.isSome →
        ∃ merged, Merge specMaster specExtra = some merged ∧
          merged.Title = specMaster.Title ∧ merged.Servers = specMaster.Servers) ∧
      ∀ other : Specification, other.Tags = specExtra.Tags → other.Paths = specExtra.Paths →
        other.Definitions = specExtra.Definitions →
        Merge specMaster other = Merge specMaster specExtra := by
  refine ⟨fun merged h => ?_, fun hP hD => ?_, fun other hT hP hD => ?_⟩
  · obtain ⟨-, h2, h3, -⟩ := Merge_spec _ _ _ h
    exact ⟨h2, h3⟩
  · obtain ⟨merged, h⟩ := Merge_some specMaster specExtra (Or.inl hP) (Or.inl hD)
    obtain ⟨-, h2, h3, -⟩ := Merge_spec _ _ _ h
    exact ⟨merged, h, h2, h3⟩
  · exact Merge_congr_extra specMaster specExtra other hT hP hD

/-- C20 witness: a master titled `Master` merged with an extra titled `Extra` keeps
the title and the servers of the master. -/
theorem merge_frame_witness :
    Merge (titledDoc "Master" getOnly) (titledDoc "Extra" postOnly)
        = some (titledDoc "Master" postOnly) ∧
      ((titledDoc "Master" postOnly).Title = (titledDoc "Master" getOnly).Title ∧
        (titledDoc "Master" postOnly).Servers = (titledDoc "Master" getOnly).Servers) ∧
      (titledDoc "Master" getOnly).Title = "Master" ∧
      Merge (titledDoc "Master" getOnly) (docWithPath postOnly)
        = Merge (titledDoc "Master" getOnly) (titledDoc "Extra" postOnly) :=
  ⟨by decide,
    (merge_frame (titledDoc "Master" getOnly) (titledDoc "Extra" postOnly)).1
      (titledDoc "Master" postOnly) (by decide),
    by decide,
    (merge_frame (titledDoc "Master" getOnly) (titledDoc "Extra" postOnly)).2.2
      (docWithPath postOnly) (by decide) (by decide) (by decide)⟩

end swagger2

/-! ## `openapi3/spec_more.go` -/

namespace openapi3

/-- One pass of the loop body of `OperationMetas` appends the records of the path:
one per present method slot, in the fixed method order. -/
theorem appendIfPresent_eq (ometas : List OperationMeta) (url method : String)
    (s : Option Operation) :
    appendIfPresent ometas url method s
      = ometas ++ (s.map (OperationToMeta url method)).toList := by
  cases s <;> simp [appendIfPresent]

theorem filterMap_cons_toList {α β : Type} (f : α → Option β) (a : α) (l : List α) :
    (a :: l).filterMap f = (f a).toList ++ l.filterMap f := by
  rw [List.filterMap_cons]
  cases f a <;> rfl

theorem visitPath_eq (ometas : List OperationMeta) (url : String) (path : PathItem) :
    visitPath ometas url path = ometas ++ pathRecords url path := by
  simp only [visitPath, appendIfPresent_eq, pathRecords, Method.all, filterMap_cons_toList,
    List.filterMap_nil, slot, Method.name, MethodConnect, MethodDelete, MethodGet, MethodHead,
    MethodOptions, MethodPatch, MethodPost, MethodPut, MethodTrace, List.append_assoc,
    List.append_nil]

theorem visitLoop_eq (es : List (String × PathItem)) (acc : List OperationMeta) :
    es.foldl (fun ometas (entry : String × PathItem) => visitPath ometas entry.1 entry.2) acc
      = acc ++ es.flatMap (fun entry => pathRecords entry.1 entry.2) := by
  induction es generalizing acc with
  | nil => simp
  | cons e tl ih =>
    rw [List.foldl_cons, ih, visitPath_eq, List.flatMap_cons, List.append_assoc]

theorem OperationMetas_eq (spec : Swagger) :
    SpecMore.OperationMetas ⟨some spec⟩
      = spec.Paths.entries.flatMap (fun entry => pathRecords entry.1 entry.2) := by
  simp only [SpecMore.OperationMetas, visitLoop_eq, List.nil_append]

theorem pathRecords_length (url : String) (path : PathItem) :
    (pathRecords url path).length = (presentMethods path).length := by
  unfold pathRecords presentMethods
  induction Method.all with
  | nil => rfl
  | cons m ms ih =>
    simp only [List.filterMap_cons, List.filter_cons]
    cases slot path m <;> simp [ih]

theorem pathRecords_keys (url : String) (path : PathItem) :
    (pathRecords url path).map (fun r => (r.Path, r.Method))
      = (presentMethods path).map (fun m => (url, m.name)) := by
  unfold pathRecords presentMethods
  induction Method.all with
  | nil => rfl
  | cons m ms ih =>
    simp only [List.filterMap_cons, List.filter_cons]
    cases slot path m <;> simp [ih, OperationToMeta]

theorem pathRecords_path (url : String) (path : PathItem) (r : OperationMeta)
    (h : r ∈ pathRecords url path) : r.Path = url := by
  unfold pathRecords at h
  obtain ⟨m, -, hm⟩ := List.mem_filterMap.mp h
  obtain ⟨op, -, rfl⟩ := Option.map_eq_some'.mp hm
  rfl

theorem Method.all_nodup : Method.all.Nodup := by decide

theorem Method.name_injective : Function.Injective Method.name := by
  intro a b hab
  cases a <;> cases b <;> first | rfl | exact absurd hab (by decide)

theorem Method.mem_all (m : Method) : m ∈ Method.all := by
  cases m <;> decide

/-- Each method string occurs once among the records of a path when the slot is
present and not at all otherwise. -/
theorem pathRecords_count (url : String) (path : PathItem) (m : Method) :
    ((pathRecords url path).map (fun r => r.Method)).count m.name
      = if (slot path m).isSome then 1 else 0 := by
  have hk := congrArg (List.map Prod.snd) (pathRecords_keys url path)
  simp only [List.map_map] at hk
  have hl : (pathRecords url path).map (fun r => r.Method)
      = (presentMethods path).map Method.name := by
    simpa [Function.comp_def] using hk
  rw [hl, List.count_map_of_injective _ _ Method.name_injective]
  have hnd : (presentMethods path).Nodup := Method.all_nodup.filter _
  by_cases hs : (slot path m).isSome
  · rw [if_pos hs]
    exact List.count_eq_one_of_mem hnd (List.mem_filter.mpr ⟨Method.mem_all m, hs⟩)
  · rw [if_neg hs]
    exact List.count_eq_zero_of_not_mem (fun hm => hs (List.mem_filter.mp hm).2)

theorem operationPairs_length (es : List (String × PathItem)) :
    (es.flatMap (fun entry => pathRecords entry.1 entry.2)).length
      = (es.flatMap (fun entry => (presentMethods entry.2).map (fun m => (entry.1, m)))).length := by
  induction es with
  | nil => rfl
  | cons e tl ih =>
    simp only [List.flatMap_cons, List.length_append, ih, pathRecords_length, List.length_map]

theorem operationPairs_nodup (es : List (String × PathItem)) (h : (es.map Prod.fst).Nodup) :
    (es.flatMap (fun entry => (presentMethods entry.2).map (fun m => (entry.1, m)))).Nodup := by
  induction es with
  | nil => exact List.nodup_nil
  | cons e tl ih =>
    simp only [List.map_cons, List.nodup_cons] at h
    rw [List.flatMap_cons, List.nodup_append]
    refine ⟨?_, ih h.2, ?_⟩
    · exact (Method.all_nodup.filter _).map (fun a b hab => congrArg Prod.snd hab)
    · intro x hx1 hx2
      obtain ⟨m, -, rfl⟩ := List.mem_map.mp hx1
      obtain ⟨e2, he2, hm2⟩ := List.mem_flatMap.mp hx2
      obtain ⟨m2, -, heq⟩ := List.mem_map.mp hm2
      have : e2.1 = e.1 := (Prod.mk.inj heq).1
      exact h.1 (this ▸ List.mem_map_of_mem Prod.fst he2)

theorem mem_operationPairs (spec : Swagger) (url : String) (m : Method) :
    (url, m) ∈ operationPairs spec ↔
      ∃ path, spec.Paths.get url = some path ∧ (slot path m).isSome := by
  unfold operationPairs GoMap.get
  simp only [List.mem_flatMap, List.mem_map, Prod.mk.injEq, presentMethods, List.mem_filter]
  constructor
  · rintro ⟨⟨u, path⟩, he, m2, ⟨-, hs⟩, rfl, rfl⟩
    exact ⟨path, (lookup_eq_some_iff_mem _ (GoMap.entries_nodup _) _ _).mpr he, hs⟩
  · rintro ⟨path, hl, hs⟩
    refine ⟨(url, path), (lookup_eq_some_iff_mem _ (GoMap.entries_nodup _) _ _).mp hl, m,
      ⟨?_, hs⟩, rfl, rfl⟩
    exact Method.mem_all m

/-- C9: for an absent document `OperationsCount` is -1; for a present document it is
the number of (path, method) pairs whose method slot holds an operation: the length
of `operationPairs`, a duplicate-free list that holds exactly the pairs
`(url, m)`, `m` one of the nine methods, for which the document has a path item
under `url` with an operation in slot `m`; it is 0 for a document with no paths. -/
theorem operationsCount_counts_pairs :
    SpecMore.OperationsCount ⟨none⟩ = -1 ∧
      ∀ spec : Swagger,
        SpecMore.OperationsCount ⟨some spec⟩ = ((operationPairs spec).length : Int) ∧
        (operationPairs spec).Nodup ∧
        (∀ url m, (url, m) ∈ operationPairs spec ↔
          ∃ path, spec.Paths.get url = some path ∧ (slot path m).isSome) ∧
        SpecMore.OperationsCount ⟨some { spec with Paths := none }⟩ = 0 ∧
        SpecMore.OperationsCount ⟨some { spec with Paths := some GoMap.empty }⟩ = 0 := by
  refine ⟨rfl, fun spec => ⟨?_, ?_, mem_operationPairs spec, rfl, rfl⟩⟩
  · simp only [SpecMore.OperationsCount, OperationMetas_eq, operationPairs,
      operationPairs_length]
  · exact operationPairs_nodup _ (GoMap.entries_nodup _)

/-- C9 witness: the document with `/x` (POST) and `/ping` (DELETE, GET) has three
operations. -/
theorem operationsCount_counts_pairs_witness :
    SpecMore.OperationsCount ⟨some twoPathDoc⟩ = 3 ∧
      operationPairs twoPathDoc
        = [("/x", Method.POST), ("/ping", Method.DELETE), ("/ping", Method.GET)] ∧
      SpecMore.OperationsCount ⟨some twoPathDoc⟩ = ((operationPairs twoPathDoc).length : Int) :=
  ⟨by decide, by decide, (operationsCount_counts_pairs.2 twoPathDoc).1⟩

/-- C10: for every path of a document, the records `OperationMetas` produces for it
form one contiguous block (no record before or after the block carries that path);
the block holds exactly one record for each present method slot of the path and
none for an absent one, in the fixed order CONNECT, DELETE, GET, HEAD, OPTIONS,
PATCH, POST, PUT, TRACE, each carrying that path and method. -/
theorem operationMetas_path_block (spec : Swagger) (url : String) (path : PathItem)
    (h : spec.Paths.get url = some path) :
    ∃ before after,
      SpecMore.OperationMetas ⟨some spec⟩ = before ++ pathRecords url path ++ after ∧
      (∀ r ∈ before ++ after, r.Path ≠ url) ∧
      (pathRecords url path).map (fun r => (r.Path, r.Method))
        = (Method.all.filter (fun m => (slot path m).isSome)).map (fun m => (url, m.name)) ∧
      (∀ m : Method, ((pathRecords url path).map (fun r => r.Method)).count m.name
        = if (slot path m).isSome then 1 else 0) ∧
      Method.all.map Method.name
        = ["CONNECT", "DELETE", "GET", "HEAD", "OPTIONS", "PATCH", "POST", "PUT", "TRACE"] := by
  have hnd := GoMap.entries_nodup spec.Paths
  have hmem := (lookup_eq_some_iff_mem _ hnd url path).mp h
  obtain ⟨pre, post, hsplit⟩ := List.append_of_mem hmem
  rw [hsplit] at hnd
  simp only [List.map_append, List.map_cons, List.nodup_append, List.nodup_cons,
    List.disjoint_cons_right] at hnd
  obtain ⟨-, ⟨hpost, -⟩, hpre, -⟩ := hnd
  refine ⟨pre.flatMap (fun entry => pathRecords entry.1 entry.2),
    post.flatMap (fun entry => pathRecords entry.1 entry.2), ?_, ?_, pathRecords_keys url path,
    pathRecords_count url path, rfl⟩
  · rw [OperationMetas_eq, hsplit, List.flatMap_append, List.flatMap_cons, List.append_assoc]
  · intro r hr hurl
    rcases List.mem_append.mp hr with hr | hr
    · obtain ⟨e, he, hre⟩ := List.mem_flatMap.mp hr
      have := pathRecords_path _ _ _ hre
      exact hpre (hurl ▸ this ▸ List.mem_map_of_mem Prod.fst he)
    · obtain ⟨e, he, hre⟩ := List.mem_flatMap.mp hr
      have := pathRecords_path _ _ _ hre
      exact hpost (hurl ▸ this ▸ List.mem_map_of_mem Prod.fst he)

/-- C10 witness: in the document with `/x` (POST) and `/ping` (DELETE, GET) the
records of `/ping` are DELETE then GET, after the record of `/x`. -/
theorem operationMetas_path_block_witness :
    twoPathDoc.Paths.get "/ping" = some deleteAndGet ∧
      SpecMore.OperationMetas ⟨some twoPathDoc⟩
        = [OperationToMeta "/x" "POST" (opNamed "create"),
            OperationToMeta "/ping" "DELETE" (opNamed "remove"),
            OperationToMeta "/ping" "GET" (opNamed "read")] ∧
      ∃ before after,
        SpecMore.OperationMetas ⟨some twoPathDoc⟩
          = before ++ pathRecords "/ping" deleteAndGet ++ after ∧
        (∀ r ∈ before ++ after, r.Path ≠ "/ping") ∧
        (pathRecords "/ping" deleteAndGet).map (fun r => (r.Path, r.Method))
          = (Method.all.filter (fun m => (slot deleteAndGet m).isSome)).map
              (fun m => ("/ping", m.name)) ∧
        (∀ m : Method, ((pathRecords "/ping" deleteAndGet).map (fun r => r.Method)).count m.name
          = if (slot deleteAndGet m).isSome then 1 else 0) ∧
        Method.all.map Method.name
          = ["CONNECT", "DELETE", "GET", "HEAD", "OPTIONS", "PATCH", "POST", "PUT", "TRACE"] :=
  ⟨by decide, by decide,
    operationMetas_path_block twoPathDoc "/ping" deleteAndGet (by decide)⟩

/-! ### Schema names -/

/-- The loop of `SchemaNameExists` answers at the entry under the queried name, if
there is one, and leaves the map alone otherwise. -/
theorem schemaLoop_eq (schemaName : String) (includeNil : Bool)
    (schemas : GoMapData (Option SchemaOrRef)) (es : List (String × Option SchemaOrRef)) :
    schemaLoop schemaName includeNil schemas es =
      match es.lookup schemaName with
      | none => (false, schemas)
      | some entry => schemaHit schemaName includeNil schemas entry := by
  induction es with
  | nil => rfl
  | cons hd tl ih =>
    obtain ⟨a, b⟩ := hd
    rw [lookup_cons_ite]
    by_cases h : a = schemaName
    · subst h
      simp only [schemaLoop, if_true, schemaHit]
      cases includeNil with
      | true => rfl
      | false =>
        cases b with
        | none => rfl
        | some ref =>
          simp only [Bool.false_eq_true, if_false, entryExists, trimRef, Option.map_some']
          by_cases hl : len (TrimSpace ref.Ref) > 0
          · have hne := (len_pos_iff _).mp hl
            simp [hl, hne]
          · have he : TrimSpace ref.Ref = "" := by
              by_contra hne
              exact hl ((len_pos_iff _).mpr hne)
            cases hv : ref.Value <;> simp [he, hv, len_empty]
    · have h2 : ¬ schemaName = a := fun e => h e.symm
      simp only [schemaLoop, h, if_false, h2, ih]

theorem SchemaNameExists_nil_map (spec : Swagger) (schemaName : String) (includeNil : Bool)
    (h : spec.Schemas = none) :
    SpecMore.SchemaNameExists ⟨some spec⟩ schemaName includeNil = some (false, ⟨some spec⟩) := by
  simp only [SpecMore.SchemaNameExists, h]

theorem SchemaNameExists_map (spec : Swagger) (schemaName : String) (includeNil : Bool)
    (d : GoMapData (Option SchemaOrRef)) (h : spec.Schemas = some d) :
    SpecMore.SchemaNameExists ⟨some spec⟩ schemaName includeNil =
      match d.entries.lookup schemaName with
      | none => some (false, ⟨some spec⟩)
      | some entry =>
        some ((schemaHit schemaName includeNil d entry).1,
          ⟨some { spec with Schemas := some (schemaHit schemaName includeNil d entry).2 }⟩) := by
  simp only [SpecMore.SchemaNameExists, h, schemaLoop_eq]
  cases d.entries.lookup schemaName with
  | none =>
    simp only
    rw [← h]
  | some entry => rfl

theorem entryExists_eq_false (entry : Option SchemaOrRef) :
    entryExists entry = false ↔
      entry = none ∨ ∃ schemaRef, entry = some schemaRef ∧
        TrimSpace schemaRef.Ref = "" ∧ schemaRef.Value = none := by
  cases entry with
  | none => simp [entryExists]
  | some ref => cases hv : ref.Value <;> simp [entryExists, hv]

/-- C11 (as stated, refuted): the entry `Pet` has the non-empty `Ref` of two blanks
and a nil `Value`, so it is not an entry with an empty `Ref` and a nil `Value`, yet
`SchemaNameExists("Pet", false)` returns false: the `Ref` is trimmed before the
test.  A nil entry gives false as well. -/
theorem schemaNameExists_blank_ref_is_false :
    (schemaDoc (some ⟨"  ", none⟩)).Schemas.get "Pet" = some (some ⟨"  ", none⟩) ∧
      claimedExists ⟨"  ", none⟩ = true ∧
      (SpecMore.SchemaNameExists ⟨some (schemaDoc (some ⟨"  ", none⟩))⟩ "Pet" false).map Prod.fst
        = some false ∧
      (SpecMore.SchemaNameExists ⟨some (schemaDoc none)⟩ "Pet" false).map Prod.fst
        = some false := by
  decide

/-- C11 (amended): for a schema name that is a key of the schema map,
`SchemaNameExists(name, includeNil=false)` returns false when the entry is nil or
has a `Ref` that is empty after trimming white space and a nil `Value`, and true for
every other entry. -/
theorem schemaNameExists_without_nil (spec : Swagger) (schemaName : String)
    (entry : Option SchemaOrRef) (h : spec.Schemas.get schemaName = some entry) :
    (∃ after, SpecMore.SchemaNameExists ⟨some spec⟩ schemaName false
        = some (entryExists entry, after)) ∧
      (entryExists entry = false ↔
        entry = none ∨ ∃ schemaRef, entry = some schemaRef ∧
          TrimSpace schemaRef.Ref = "" ∧ schemaRef.Value = none) := by
  refine ⟨?_, entryExists_eq_false entry⟩
  cases hS : spec.Schemas with
  | none => rw [hS] at h; cases h
  | some d =>
    rw [hS] at h
    have hl : d.entries.lookup schemaName = some entry := h
    rw [SchemaNameExists_map spec schemaName false d hS, hl]
    cases entry with
    | none => exact ⟨_, rfl⟩
    | some ref => exact ⟨_, rfl⟩

/-- C11 witness: a reference with surrounding blanks exists, a blank reference with
no value does not. -/
theorem schemaNameExists_without_nil_witness :
    (schemaDoc (some ⟨" #/components/schemas/Animal ", none⟩)).Schemas.get "Pet"
        = some (some ⟨" #/components/schemas/Animal ", none⟩) ∧
      entryExists (some ⟨" #/components/schemas/Animal ", none⟩) = true ∧
      entryExists (some ⟨"", some ⟨"a pet"⟩⟩) = true ∧
      entryExists (some ⟨"  ", none⟩) = false ∧
      ∃ after, SpecMore.SchemaNameExists
          ⟨some (schemaDoc (some ⟨" #/components/schemas/Animal ", none⟩))⟩ "Pet" false
        = some (entryExists (some ⟨" #/components/schemas/Animal ", none⟩), after) :=
  ⟨by decide, by decide, by decide, by decide,
    (schemaNameExists_without_nil (schemaDoc (some ⟨" #/components/schemas/Animal ", none⟩))
      "Pet" (some ⟨" #/components/schemas/Animal ", none⟩) (by decide)).1⟩

/-- C12: `SchemaNameExists(name, includeNil=true)` returns true exactly when `name` is
a key of the schema map, whatever the entry holds (a nil entry included); for a name
that is not a key it returns false for both values of `includeNil`. -/
theorem schemaNameExists_with_nil (spec : Swagger) (schemaName : String) :
    (SpecMore.SchemaNameExists ⟨some spec⟩ schemaName true).map Prod.fst
        = some (decide (schemaName ∈ spec.Schemas.entries.map Prod.fst)) ∧
      (schemaName ∉ spec.Schemas.entries.map Prod.fst →
        ∀ includeNil, (SpecMore.SchemaNameExists ⟨some spec⟩ schemaName includeNil).map Prod.fst
          = some false) := by
  cases hS : spec.Schemas with
  | none =>
    simp [SchemaNameExists_nil_map spec schemaName _ hS, GoMap.entries]
  | some d =>
    have hk := lookup_isSome_iff_mem_keys schemaName d.entries
    constructor
    · rw [SchemaNameExists_map spec schemaName true d hS]
      cases hl : d.entries.lookup schemaName with
      | none =>
        rw [hl] at hk
        have : schemaName ∉ d.entries.map Prod.fst := fun hm => by simpa using hk.mpr hm
        simp [GoMap.entries, this]
      | some entry =>
        rw [hl] at hk
        have : schemaName ∈ d.entries.map Prod.fst := hk.mp rfl
        simp only [GoMap.entries, this, decide_True, schemaHit, if_true, Option.map_some']
    · intro hnot includeNil
      rw [SchemaNameExists_map spec schemaName includeNil d hS]
      cases hl : d.entries.lookup schemaName with
      | none => rfl
      | some entry =>
        rw [hl] at hk
        exact absurd (hk.mp rfl) hnot

/-- C12 witness: `Pet` with a nil entry exists when nil entries are included; `Owner`
is not a key and does not exist either way. -/
theorem schemaNameExists_with_nil_witness :
    (SpecMore.SchemaNameExists ⟨some (schemaDoc none)⟩ "Pet" true).map Prod.fst = some true ∧
      "Owner" ∉ (schemaDoc none).Schemas.entries.map Prod.fst ∧
      ∀ includeNil, (SpecMore.SchemaNameExists ⟨some (schemaDoc none)⟩ "Owner" includeNil).map
          Prod.fst = some false :=
  ⟨by decide, by decide,
    (schemaNameExists_with_nil (schemaDoc none) "Owner").2 (by decide)⟩

/-- C16 (code evaluated at the failing input): the entry `Pet` holds a `Ref` with
surrounding blanks; `SchemaNameExists("Pet", false)` assigns the trimmed `Ref`
through the entry pointer, so after the call the document holds the trimmed `Ref`:
the schema map is not the same after the call as before it.  With `includeNil` true
the same document is left as it is. -/
theorem schemaNameExists_rewrites_ref :
    SpecMore.SchemaNameExists
        ⟨some (schemaDoc (some ⟨" #/components/schemas/Animal ", none⟩))⟩ "Pet" false
      = some (true, ⟨some (schemaDoc (some ⟨"#/components/schemas/Animal", none⟩))⟩) ∧
      (schemaDoc (some ⟨"#/components/schemas/Animal", none⟩)).Schemas.get "Pet"
        ≠ (schemaDoc (some ⟨" #/components/schemas/Animal ", none⟩)).Schemas.get "Pet" ∧
      SpecMore.SchemaNameExists
          ⟨some (schemaDoc (some ⟨" #/components/schemas/Animal ", none⟩))⟩ "Pet" true
        = some (true, ⟨some (schemaDoc (some ⟨" #/components/schemas/Animal ", none⟩))⟩) := by
  decide

/-- The effect of `SchemaNameExists` on a present document: it returns, and changes
nothing but the `Ref` of the queried entry.  With `includeNil` true the document is
the same after the call; with `includeNil` false the entry under the queried name,
when there is one and it is not nil, has its `Ref` replaced by the trimmed `Ref`;
every `Value`, every other entry and every other field is as before. -/
theorem schemaNameExists_effect (spec : Swagger) (schemaName : String) (includeNil : Bool) :
    ∃ flag after,
      SpecMore.SchemaNameExists ⟨some spec⟩ schemaName includeNil = some (flag, ⟨some after⟩) ∧
      after = { spec with Schemas := after.Schemas } ∧
      (∀ k, after.Schemas.get k =
        if includeNil = false ∧ k = schemaName then (spec.Schemas.get k).map trimRef
        else spec.Schemas.get k) ∧
      (includeNil = true → after = spec) := by
  cases hS : spec.Schemas with
  | none =>
    refine ⟨false, spec, SchemaNameExists_nil_map spec schemaName includeNil hS, ?_, ?_, fun _ => rfl⟩
    · have hself : spec = { spec with Schemas := none } := by rw [← hS]
      rw [hS]; exact hself
    · intro k
      rw [hS]
      by_cases hc : includeNil = false ∧ k = schemaName
      · rw [if_pos hc]; rfl
      · rw [if_neg hc]
  | some d =>
    have hself : spec = { spec with Schemas := some d } := by rw [← hS]
    rw [SchemaNameExists_map spec schemaName includeNil d hS]
    cases hl : d.entries.lookup schemaName with
    | none =>
      refine ⟨false, spec, rfl, ?_, ?_, fun _ => rfl⟩
      · rw [hS]; exact hself
      · intro k
        rw [hS]
        by_cases hc : includeNil = false ∧ k = schemaName
        · rw [if_pos hc, hc.2]
          show d.entries.lookup schemaName = (d.entries.lookup schemaName).map trimRef
          rw [hl]; rfl
        · rw [if_neg hc]
    | some entry =>
      refine ⟨_, _, rfl, rfl, ?_, ?_⟩
      · intro k
        cases includeNil with
        | true => simp [schemaHit]
        | false =>
          cases entry with
          | none =>
            simp only [schemaHit, Bool.false_eq_true, if_false, true_and]
            by_cases hk : k = schemaName
            · rw [if_pos hk, hk]
              show d.entries.lookup schemaName = (d.entries.lookup schemaName).map trimRef
              rw [hl]; rfl
            · rw [if_neg hk]
          | some ref =>
            simp only [schemaHit, Bool.false_eq_true, if_false, true_and, GoMap.get_some_assign]
            by_cases hk : k = schemaName
            · rw [if_pos hk, if_pos hk, hk]
              show _ = (d.entries.lookup schemaName).map trimRef
              rw [hl]; rfl
            · rw [if_neg hk, if_neg hk]
      · intro hi
        subst hi
        simp only [schemaHit, if_true]
        exact hself.symm

/-! ### Tag inventory -/

theorem countTag_get (tagsMap : GoMapData Int) (name k : String) :
    GoMap.get (some (countTag tagsMap name)) k =
      if TrimSpace name ≠ "" ∧ k = TrimSpace name then
        some ((GoMap.get (some tagsMap) k).getD 0 + 1)
      else GoMap.get (some tagsMap) k := by
  unfold countTag
  simp only
  by_cases hl : len (TrimSpace name) > 0
  · have hne := (len_pos_iff _).mp hl
    rw [if_pos hl]
    cases hg : GoMap.get (some tagsMap) (TrimSpace name) with
    | none =>
      simp only [GoMap.get_some_assign, if_true]
      by_cases hk : k = TrimSpace name
      · subst hk
        simp [hne, hg]
      · simp [hk]
    | some c =>
      simp only [hg, GoMap.get_some_assign]
      by_cases hk : k = TrimSpace name
      · subst hk
        simp [hne, hg]
      · simp [hk]
  · have he : TrimSpace name = "" := by
      by_contra hne
      exact hl ((len_pos_iff _).mpr hne)
    rw [if_neg hl]
    simp [he]

/-- The counting loop of `TagsMap` adds, under each non-empty key, the number of
visited names that trim to the key. -/
theorem countLoop_get (tags : List Tag) (tagsMap : GoMapData Int) (k : String) :
    GoMap.get (some (tags.foldl (fun tagsMap tag => countTag tagsMap tag.Name) tagsMap)) k =
      if k = "" ∨ (tags.map (fun tag => TrimSpace tag.Name)).count k = 0 then
        GoMap.get (some tagsMap) k
      else
        some ((GoMap.get (some tagsMap) k).getD 0
          + ((tags.map (fun tag => TrimSpace tag.Name)).count k : Int)) := by
  induction tags generalizing tagsMap with
  | nil => simp
  | cons t ts ih =>
    rw [List.foldl_cons, ih, countTag_get, List.map_cons, List.count_cons]
    by_cases hk : k = ""
    · subst hk
      have : ¬ (TrimSpace t.Name ≠ "" ∧ "" = TrimSpace t.Name) := fun h => h.1 h.2.symm
      simp [this]
    · by_cases ht : k = TrimSpace t.Name
      · subst ht
        by_cases hc : List.count (TrimSpace t.Name) (ts.map (fun tag => TrimSpace tag.Name)) = 0
        · simp [hk, hc]
        · simp only [hk, hc, false_or, if_false, ne_eq, not_false_eq_true, and_self, if_true,
            Option.getD_some, beq_self_eq_true, Nat.add_eq_zero, one_ne_zero, and_false,
            Option.some.injEq]
          push_cast
          omega
      · have hb : (TrimSpace t.Name == k) = false := by
          simpa using fun h => ht h.symm
        simp [hk, ht, hb]

/-- C13: for a present document, `TagsMap(inclTop=true, inclOps=false)` returns a map
whose keys are exactly the non-empty whitespace-trimmed names of the top-level
tags, and which maps each key to the number of top-level tags whose trimmed name
equals it. -/
theorem tagsMap_top_level (spec : Swagger) :
    ∃ tagsMap, SpecMore.TagsMap ⟨some spec⟩ true false = some tagsMap ∧
      (∀ k, k ∈ tagsMap.entries.map Prod.fst ↔ k ≠ "" ∧ k ∈ trimmedTagNames spec) ∧
      ∀ k, k ≠ "" → k ∈ trimmedTagNames spec →
        GoMap.get (some tagsMap) k = some ((trimmedTagNames spec).count k : Int) := by
  refine ⟨_, rfl, ?_, ?_⟩
  · intro k
    rw [← lookup_isSome_iff_mem_keys]
    have h := countLoop_get spec.Tags GoMap.empty k
    simp only [GoMap.get, GoMap.entries] at h
    simp only [Bool.false_eq_true, if_false, if_true]
    rw [h]
    by_cases hk : k = ""
    · simp [hk, GoMap.empty, List.lookup]
    · by_cases hc : (spec.Tags.map (fun tag => TrimSpace tag.Name)).count k = 0
      · have : k ∉ trimmedTagNames spec := List.count_eq_zero.mp hc
        simp [hk, hc, this, GoMap.empty, List.lookup]
      · have : k ∈ trimmedTagNames spec := by
          by_contra hn
          exact hc (List.count_eq_zero.mpr hn)
        simp [hk, hc, this]
  · intro k hk hm
    have h := countLoop_get spec.Tags GoMap.empty k
    have hc : ¬ (spec.Tags.map (fun tag => TrimSpace tag.Name)).count k = 0 :=
      fun h0 => (List.count_eq_zero.mp h0) hm
    simp only [Bool.false_eq_true, if_false, if_true]
    rw [h]
    simp [hk, hc, GoMap.get, GoMap.entries, GoMap.empty, List.lookup, trimmedTagNames]

/-- C13 witness: top-level tags `[" x "]` give the map with the single entry
`"x": 1`; a tag whose name is blank contributes no key. -/
theorem tagsMap_top_level_witness :
    (SpecMore.TagsMap ⟨some (tagDoc [" x "])⟩ true false).map (fun m => m.entries)
        = some [("x", 1)] ∧
      (SpecMore.TagsMap ⟨some (tagDoc [" x ", "  ", "x"])⟩ true false).map (fun m => m.entries)
        = some [("x", 2)] ∧
      ∃ tagsMap, SpecMore.TagsMap ⟨some (tagDoc [" x "])⟩ true false = some tagsMap ∧
        (∀ k, k ∈ tagsMap.entries.map Prod.fst ↔ k ≠ "" ∧ k ∈ trimmedTagNames (tagDoc [" x "])) ∧
        ∀ k, k ≠ "" → k ∈ trimmedTagNames (tagDoc [" x "]) →
          GoMap.get (some tagsMap) k = some ((trimmedTagNames (tagDoc [" x "])).count k : Int) :=
  ⟨by decide, by decide, tagsMap_top_level (tagDoc [" x "])⟩

/-! ### Operations table -/

theorem foldl_append_singleton {α β : Type} (g : α → β) (l : List α) (init : List β) :
    l.foldl (fun acc x => acc ++ [g x]) init = init ++ l.map g := by
  induction l generalizing init with
  | nil => simp
  | cons a tl ih => simp [List.foldl_cons, ih]

theorem visitSlots_eq {σ : Type} (url : String) (path : PathItem)
    (visitOp : String → String → Operation → σ → σ) (ms : List Method) (init : σ) :
    ms.foldl
        (fun state m =>
          match slot path m with
          | some op => visitOp url m.name op state
          | none => state)
        init
      = (ms.filterMap (fun m => (slot path m).map (fun op => (url, m.name, op)))).foldl
          (fun state (v : String × String × Operation) => visitOp v.1 v.2.1 v.2.2 state) init := by
  induction ms generalizing init with
  | nil => rfl
  | cons m tl ih =>
    rw [List.foldl_cons, List.filterMap_cons]
    cases hs : slot path m with
    | none => simp only [Option.map_none']; exact ih init
    | some op => simp only [Option.map_some', List.foldl_cons]; exact ih _

/-- `VisitOperations` runs the callback over the visited triples, in order. -/
theorem VisitOperations_eq {σ : Type} (spec : Swagger)
    (visitOp : String → String → Operation → σ → σ) (init : σ) :
    VisitOperations spec visitOp init
      = (visitedOperations spec).foldl
          (fun state (v : String × String × Operation) => visitOp v.1 v.2.1 v.2.2 state) init := by
  unfold VisitOperations visitedOperations
  induction spec.Paths.entries generalizing init with
  | nil => rfl
  | cons e tl ih =>
    rw [List.foldl_cons, List.flatMap_cons, List.foldl_append, visitSlots_eq, ih]

theorem appendRow_eq (columns : TextSet) (tgs : List TagGroup) (path method : String)
    (op : Operation) (tbl : Table) :
    appendRow columns tgs path method op tbl
      = { tbl with Records := tbl.Records ++ [columns.Texts.map (cell tgs path method op)] } := by
  simp only [appendRow, foldl_append_singleton, List.nil_append]

theorem appendRows_eq (columns : TextSet) (tgs : List TagGroup)
    (vs : List (String × String × Operation)) (tbl : Table) :
    vs.foldl (fun state (v : String × String × Operation) =>
        appendRow columns tgs v.1 v.2.1 v.2.2 state) tbl
      = { tbl with Records := tbl.Records
            ++ vs.map (fun v => columns.Texts.map (cell tgs v.1 v.2.1 v.2.2)) } := by
  induction vs generalizing tbl with
  | nil => simp
  | cons v tl ih =>
    rw [List.foldl_cons, ih, appendRow_eq]
    simp only [List.append_assoc, List.map_cons, List.singleton_append]

/-- The table `operationsTable` returns when the root metadata is present and the
tag-group extension is absent or well formed. -/
theorem operationsTable_eq (spec : Swagger) (columns : Option TextSet) (info : Info)
    (hInfo : spec.Info = some info) (h : spec.XTagGroups ≠ some none) :
    operationsTable (some spec) columns
      = some (Except.ok
          { Name := info.Title,
            Columns := (columnsOrDefault columns).Texts.map (fun text => text.Display),
            Records := (visitedOperations spec).map (fun v =>
              (columnsOrDefault columns).Texts.map (cell (declaredGroups spec) v.1 v.2.1 v.2.2)) }) := by
  unfold operationsTable
  simp only [SpecMore.TagGroups, declaredGroups, hInfo]
  cases hx : spec.XTagGroups with
  | none =>
    simp only [VisitOperations_eq, appendRows_eq, NewTable, List.nil_append]
    rfl
  | some ext =>
    cases ext with
    | none => exact absurd hx h
    | some groups =>
      simp only [VisitOperations_eq, appendRows_eq, NewTable, List.nil_append]
      rfl

/-- Without root metadata `operationsTable` panics on `spec.Info.Title`. -/
theorem operationsTable_nil_info (spec : Swagger) (columns : Option TextSet)
    (hInfo : spec.Info = none) : operationsTable (some spec) columns = none := by
  simp only [operationsTable, hInfo]

/-- With a malformed tag-group extension `operationsTable` returns an error. -/
theorem operationsTable_malformed (spec : Swagger) (columns : Option TextSet) (info : Info)
    (hInfo : spec.Info = some info) (h : spec.XTagGroups = some none) :
    operationsTable (some spec) columns = some (Except.error "E_TAG_GROUPS_MALFORMED") := by
  simp only [operationsTable, SpecMore.TagGroups, hInfo, h]

theorem pathRecords_eq_map (url : String) (path : PathItem) (ms : List Method) :
    ms.filterMap (fun m => (slot path m).map (OperationToMeta url m.name))
      = (ms.filterMap (fun m => (slot path m).map (fun op => (url, m.name, op)))).map
          (fun v => OperationToMeta v.1 v.2.1 v.2.2) := by
  induction ms with
  | nil => rfl
  | cons m tl ih =>
    rw [List.filterMap_cons, List.filterMap_cons]
    cases slot path m with
    | none => simp only [Option.map_none']; exact ih
    | some op => simp only [Option.map_some', List.map_cons, ih]

/-- `OperationMetas` holds one record per visited triple. -/
theorem OperationMetas_eq_visited (spec : Swagger) :
    SpecMore.OperationMetas ⟨some spec⟩
      = (visitedOperations spec).map (fun v => OperationToMeta v.1 v.2.1 v.2.2) := by
  rw [OperationMetas_eq]
  unfold visitedOperations pathRecords
  induction spec.Paths.entries with
  | nil => rfl
  | cons e tl ih =>
    rw [List.flatMap_cons, List.flatMap_cons, List.map_append, ih, pathRecords_eq_map]

theorem OperationsCount_eq_visited (spec : Swagger) :
    SpecMore.OperationsCount ⟨some spec⟩ = ((visitedOperations spec).length : Int) := by
  simp only [SpecMore.OperationsCount, OperationMetas_eq_visited, List.length_map]

/-- C14 (as stated, refuted): the document has a well-formed tag-group extension
and one operation, but no root metadata (nil `Info`); `operationsTable` panics on
`spec.Info.Title` (spec_more.go:47) and returns no table. -/
theorem operationsTable_panics_without_info :
    untitledDoc.XTagGroups ≠ some none ∧
      SpecMore.OperationsCount ⟨some untitledDoc⟩ = 1 ∧
      operationsTable (some untitledDoc) none = none ∧
      ¬ ∃ tbl, operationsTable (some untitledDoc) none = some (Except.ok tbl) := by
  have hn : operationsTable (some untitledDoc) none = none := rfl
  refine ⟨by decide, by decide, hn, ?_⟩
  rintro ⟨tbl, h⟩
  rw [hn] at h
  cases h

/-- C14 (amended): for every document with its root metadata (`Info`) present and
its tag-group extension absent or well formed, and every column list (the default
list when none is given), `operationsTable` returns a table named after the document
title, with one column name per column, one row per visited operation in visiting
order, hence `OperationsCount` rows, each row with exactly as many cells as there
are columns; with zero operations it has zero rows and the columns still
populated. -/
theorem operationsTable_shape (spec : Swagger) (columns : Option TextSet) (info : Info)
    (hInfo : spec.Info = some info) (h : spec.XTagGroups ≠ some none) :
    ∃ tbl, operationsTable (some spec) columns = some (Except.ok tbl) ∧
      SpecMore.OperationsTable ⟨some spec⟩ columns = some (Except.ok tbl) ∧
      tbl.Name = info.Title ∧
      tbl.Columns = (columnsOrDefault columns).Texts.map (fun text => text.Display) ∧
      tbl.Records = (visitedOperations spec).map (fun v =>
        (columnsOrDefault columns).Texts.map (cell (declaredGroups spec) v.1 v.2.1 v.2.2)) ∧
      (tbl.Records.length : Int) = SpecMore.OperationsCount ⟨some spec⟩ ∧
      (∀ row ∈ tbl.Records, row.length = tbl.Columns.length) ∧
      (SpecMore.OperationsCount ⟨some spec⟩ = 0 →
        tbl.Records = [] ∧ tbl.Columns.length = (columnsOrDefault columns).Texts.length) := by
  refine ⟨_, operationsTable_eq spec columns info hInfo h,
    operationsTable_eq spec columns info hInfo h, rfl, rfl, rfl, ?_, ?_, ?_⟩
  · simp only [List.length_map, OperationsCount_eq_visited]
  · intro row hrow
    obtain ⟨v, -, rfl⟩ := List.mem_map.mp hrow
    simp only [List.length_map]
  · intro h0
    rw [OperationsCount_eq_visited] at h0
    have hnil : visitedOperations spec = [] := by
      apply List.eq_nil_of_length_eq_zero
      exact_mod_cast h0
    simp only [hnil, List.map_nil, List.length_map, and_self]

/-- C14 witness: the titled document with three operations gives three rows of five
cells under the default columns; the titled document without paths gives no row and
the five columns. -/
theorem operationsTable_shape_witness :
    operationsTable (some emptyDoc) none
        = some (Except.ok
            { Name := "Empty", Columns := ["Method", "Path", "OperationID", "Summary", "Tags"],
              Records := [] }) ∧
      inventoryDoc.Info = some { Title := "Inventory" } ∧
      inventoryDoc.XTagGroups ≠ some none ∧
      SpecMore.OperationsCount ⟨some inventoryDoc⟩ = 3 ∧
      ∃ tbl, operationsTable (some inventoryDoc) none = some (Except.ok tbl) ∧
        (tbl.Records.length : Int) = SpecMore.OperationsCount ⟨some inventoryDoc⟩ ∧
        (∀ row ∈ tbl.Records, row.length = tbl.Columns.length) ∧
        tbl.Columns = ["Method", "Path", "OperationID", "Summary", "Tags"] := by
  refine ⟨rfl, by decide, by decide, by decide, ?_⟩
  obtain ⟨tbl, h1, -, -, h4, -, h6, h7, -⟩ :=
    operationsTable_shape inventoryDoc none { Title := "Inventory" } (by decide) (by decide)
  exact ⟨tbl, h1, h6, h7, h4⟩

/-- C15: with the default column list (Method, Path, OperationID, Summary, Tags), the
row built for an operation at (path, method) is exactly [method, path, operationId,
summary, the tags joined with ", "]; every table `operationsTable` returns for a
document under the default columns holds exactly these rows for the visited
operations, and it returns one when the root metadata is present and the tag-group
extension is absent or well formed; the document with the single operation
GET /ping (operationId "ping", summary "Ping", tags ["health"]) gives the single
row ["GET", "/ping", "ping", "Ping", "health"]. -/
theorem operationsTable_default_rows :
    (∀ (tgs : List TagGroup) (path method : String) (op : Operation) (tbl : Table),
      (appendRow { Texts := OpTableColumnsDefault } tgs path method op tbl).Records
        = tbl.Records ++ [[method, path, op.OperationID, op.Summary, Join op.Tags ", "]]) ∧
      (∀ (spec : Swagger) (tbl : Table), operationsTable (some spec) none = some (Except.ok tbl) →
        tbl.Records = (visitedOperations spec).map (fun v =>
          [v.2.1, v.1, v.2.2.OperationID, v.2.2.Summary, Join v.2.2.Tags ", "])) ∧
      (∀ (spec : Swagger) (info : Info), spec.Info = some info → spec.XTagGroups ≠ some none →
        ∃ tbl, operationsTable (some spec) none = some (Except.ok tbl) ∧
          tbl.Records = (visitedOperations spec).map (fun v =>
            [v.2.1, v.1, v.2.2.OperationID, v.2.2.Summary, Join v.2.2.Tags ", "])) ∧
      operationsTable (some pingDoc) none
        = some (Except.ok
            { Name := "Health", Columns := ["Method", "Path", "OperationID", "Summary", "Tags"],
              Records := [["GET", "/ping", "ping", "Ping", "health"]] }) := by
  refine ⟨?_, ?_, ?_, rfl⟩
  · intro tgs path method op tbl
    rw [appendRow_eq]
    rfl
  · intro spec tbl htbl
    cases hInfo : spec.Info with
    | none =>
      rw [operationsTable_nil_info spec none hInfo] at htbl
      cases htbl
    | some info =>
      by_cases hx : spec.XTagGroups = some none
      · rw [operationsTable_malformed spec none info hInfo hx] at htbl
        cases htbl
      · rw [operationsTable_eq spec none info hInfo hx] at htbl
        have := Except.ok.inj (Option.some.inj htbl)
        rw [← this]
        rfl
  · intro spec info hInfo h
    exact ⟨_, operationsTable_eq spec none info hInfo h, rfl⟩

/-- C15 witness: the rows of the document with GET /ping under the default columns. -/
theorem operationsTable_default_rows_witness :
    visitedOperations pingDoc = [("/ping", "GET", pingOp)] ∧
      pingDoc.Info = some { Title := "Health" } ∧
      pingDoc.XTagGroups ≠ some none ∧
      (∃ tbl, operationsTable (some pingDoc) none = some (Except.ok tbl) ∧
        tbl.Records = (visitedOperations pingDoc).map (fun v =>
          [v.2.1, v.1, v.2.2.OperationID, v.2.2.Summary, Join v.2.2.Tags ", "])) ∧
      [["GET", "/ping", "ping", "Ping", "health"]]
        = (visitedOperations pingDoc).map (fun v =>
          [v.2.1, v.1, v.2.2.OperationID, v.2.2.Summary, Join v.2.2.Tags ", "]) :=
  ⟨by decide, by decide, by decide,
    operationsTable_default_rows.2.2.1 pingDoc { Title := "Health" } (by decide) (by decide),
    operationsTable_default_rows.2.1 pingDoc
      { Name := "Health", Columns := ["Method", "Path", "OperationID", "Summary", "Tags"],
        Records := [["GET", "/ping", "ping", "Ping", "health"]] } rfl⟩

/-! ### Server URL -/

theorem wrapInt64_of_lt (n : Int) (h0 : 0 ≤ n) (h : n < 2 ^ 63) : wrapInt64 n = n := by
  unfold wrapInt64
  omega

/-- Below 2^63 - 1 the guard of `ServerURL` is the bounds check it is meant to be. -/
theorem ServerURL_in_range (spec : Swagger) (index : Nat) (h : index < 2 ^ 63 - 1) :
    SpecMore.ServerURL ⟨some spec⟩ index =
      match spec.Servers[index]? with
      | none => some ""
      | some server => some (TrimSpace server) := by
  have hmod : index % 2 ^ 64 = index := Nat.mod_eq_of_lt (by omega)
  have h1 : wrapInt64 ((index : Nat) : Int) = index := wrapInt64_of_lt _ (by omega) (by omega)
  have h2 : wrapInt64 ((index : Int) + 1) = index + 1 := wrapInt64_of_lt _ (by omega) (by omega)
  simp only [SpecMore.ServerURL, hmod, h1, h2]
  by_cases hlen : index < spec.Servers.length
  · have hn : ¬ ((index : Int) + 1 > (spec.Servers.length : Int)) := by omega
    rw [if_neg hn, List.getElem?_eq_getElem hlen]
  · have hp : (index : Int) + 1 > (spec.Servers.length : Int) := by omega
    rw [if_pos hp, List.getElem?_eq_none (by omega)]

/-- C17 (code evaluated at the failing input): with one server and the index
2^64 - 1, the conversion `int(index)` is -1, the guard `int(index)+1 > len` is
`0 > 1` and does not fire, and `Servers[index]` is out of range: `ServerURL` panics
instead of returning the empty string.  The index 2^63 - 1 panics the same way
(`int(index)+1` wraps to -2^63); the index 2^63 - 2 is still guarded. -/
theorem serverURL_panics_on_huge_index :
    serverDoc.Servers.length = 1 ∧
      wrapInt64 (wrapInt64 ((2 ^ 64 - 1 : Nat) : Int) + 1) = 0 ∧
      SpecMore.ServerURL ⟨some serverDoc⟩ (2 ^ 64 - 1) = none ∧
      wrapInt64 (wrapInt64 ((2 ^ 63 - 1 : Nat) : Int) + 1) = -2 ^ 63 ∧
      SpecMore.ServerURL ⟨some serverDoc⟩ (2 ^ 63 - 1) = none ∧
      SpecMore.ServerURL ⟨some serverDoc⟩ (2 ^ 63 - 2) = some "" ∧
      SpecMore.ServerURL ⟨some serverDoc⟩ 0 = some "https://api.example.com/v1" := by
  decide

end openapi3

end Swaggman
